import Mathlib

/-!
Shallow embedding of the jembadb storage engine (src/TableRowsFile.js,
src/ShardedTable.js, and the database directory manager) in Lean 4,
together with proofs settling the frozen claims about its specification.

JavaScript `Map` values are modelled as association lists (`List (α × β)`)
with replace-in-place `set` semantics, `Set` values as duplicate-free
`List α` with append-at-end `add` semantics, and row/record payloads as
opaque `String`s (the engine never inspects a row's contents).
-/

namespace JembaDb

/-- JavaScript row ids are either numbers or strings
(`typeof(id) === 'number'` distinguishes them in `load`). -/
inductive JsId where
  | num (n : Nat)
  | str (s : String)
deriving Repr, DecidableEq

/-- JS `Set.add`: append if not present (JS sets keep insertion order). -/
def jsSetAdd {α : Type _} [DecidableEq α] (s : List α) (x : α) : List α :=
  if x ∈ s then s else s ++ [x]

/-- JS `Set.delete` / `Map.delete`: remove the element / key. -/
def jsSetDel {α : Type _} [DecidableEq α] (s : List α) (x : α) : List α :=
  s.filter (fun y => y ≠ x)

/-- JS `Map.get`: the value at the first (in a well-formed map: only)
entry with the given key. -/
def jsMapGet {α β : Type _} [DecidableEq α] : List (α × β) → α → Option β
  | [], _ => none
  | p :: rest, k => if p.1 = k then some p.2 else jsMapGet rest k

/-- JS `Map.set`: replace the entry in place if the key is present,
append at the end otherwise. -/
def jsMapSet {α β : Type _} [DecidableEq α] : List (α × β) → α → β → List (α × β)
  | [], k, v => [(k, v)]
  | p :: rest, k, v => if p.1 = k then (k, v) :: rest else p :: jsMapSet rest k v

/-- JS `Map.delete`. -/
def jsMapDel {α β : Type _} [DecidableEq α] (m : List (α × β)) (k : α) : List (α × β) :=
  m.filter (fun p => p.1 ≠ k)

/-- Mutating a value stored in a JS map through the object reference
(`const b = m.get(k); b.field = v`): no-op when the key is absent. -/
def jsMapModify {α β : Type _} [DecidableEq α] (m : List (α × β)) (k : α) (f : β → β) :
    List (α × β) :=
  m.map (fun p => if p.1 = k then (k, f p.2) else p)

/-- JS `Map.keys()` of an association list. -/
def jsMapKeys {α β : Type _} (m : List (α × β)) : List α :=
  m.map (·.1)

theorem jsMapGet_jsMapSet_self {α β : Type _} [DecidableEq α]
    (m : List (α × β)) (k : α) (v : β) : jsMapGet (jsMapSet m k v) k = some v := by
  induction m with
  | nil => simp [jsMapSet, jsMapGet]
  | cons p rest ih =>
    by_cases hp : p.1 = k
    · simp [jsMapSet, jsMapGet, hp]
    · simp [jsMapSet, jsMapGet, hp, ih]

theorem jsMapGet_jsMapSet_ne {α β : Type _} [DecidableEq α]
    (m : List (α × β)) (k k' : α) (v : β) (h : k' ≠ k) :
    jsMapGet (jsMapSet m k v) k' = jsMapGet m k' := by
  induction m with
  | nil => simp [jsMapSet, jsMapGet, Ne.symm h]
  | cons p rest ih =>
    by_cases hp : p.1 = k
    · simp only [jsMapSet, if_pos hp, jsMapGet]
      rw [if_neg (Ne.symm h), if_neg (by rw [hp]; exact Ne.symm h)]
    · simp only [jsMapSet, if_neg hp, jsMapGet]
      by_cases hpk : p.1 = k'
      · rw [if_pos hpk, if_pos hpk]
      · rw [if_neg hpk, if_neg hpk]; exact ih

theorem mem_jsMapSet {α β : Type _} [DecidableEq α]
    {m : List (α × β)} {k : α} {v : β} {p : α × β} (h : p ∈ jsMapSet m k v) :
    p ∈ m ∨ p = (k, v) := by
  induction m with
  | nil => simp [jsMapSet] at h; exact Or.inr h
  | cons q rest ih =>
    by_cases hq : q.1 = k
    · rw [jsMapSet, if_pos hq] at h
      rcases List.mem_cons.mp h with h | h
      · exact Or.inr h
      · exact Or.inl (List.mem_cons_of_mem _ h)
    · rw [jsMapSet, if_neg hq] at h
      rcases List.mem_cons.mp h with h | h
      · exact Or.inl (h ▸ List.mem_cons_self _ _)
      · rcases ih h with h' | h'
        · exact Or.inl (List.mem_cons_of_mem _ h')
        · exact Or.inr h'

theorem jsMapGet_mem {α β : Type _} [DecidableEq α]
    {m : List (α × β)} {k : α} {v : β} (h : jsMapGet m k = some v) : (k, v) ∈ m := by
  induction m with
  | nil => simp [jsMapGet] at h
  | cons p rest ih =>
    by_cases hp : p.1 = k
    · rw [jsMapGet, if_pos hp] at h
      have : p = (k, v) := by
        cases p with
        | mk a b => cases hp; cases (Option.some.injEq _ _ ▸ h : b = v); rfl
      exact this ▸ List.mem_cons_self _ _
    · rw [jsMapGet, if_neg hp] at h
      exact List.mem_cons_of_mem _ (ih h)

/-! ## Block model (src/TableRowsFile.js)

A block record as created by `createNewBlock` and recovered by `load`.
Row payloads are opaque strings. -/

structure Block where
  index : Nat
  delCount : Nat
  addCount : Nat
  size : Nat
  rows : Option (List (JsId × String))
  rowsLength : Nat
  final : Bool
deriving Repr, DecidableEq

/-- `const maxBlockSize = 1024*1024` (bytes). -/
def maxBlockSize : Nat := 1024 * 1024

/-- `const minFileDumpSize = 100*1024` (bytes). -/
def minFileDumpSize : Nat := 100 * 1024

/-- `const maxFileDumpSize = 50*1024*1024` (bytes). -/
def maxFileDumpSize : Nat := 50 * 1024 * 1024

/-! ## C2: the defragmentation pick condition (saveDelta, lines 405-423)

`block.addCount - block.delCount < block.rowsLength*0.6` is evaluated by the
source in IEEE-754 doubles on integer counters.  For integers `x` and `n` in
the safe range, `x < n*0.6` in doubles is equivalent to the exact rational
comparison `x < 3*n/5`: when `n` is a multiple of 5 the product `n*0.6`
rounds to exactly `3*n/5` (the relative error of the double nearest 0.6 is
below every half-ulp), and otherwise `3*n/5` is at distance ≥ 0.4 from every
integer while the rounding error is ~1e-16.  We therefore embed the
condition as `5*(addCount - delCount) < 3*rowsLength` over `Int`. -/

def defragCond (b : Block) : Bool :=
  (decide (0 < b.delCount) &&
    decide (5 * ((b.addCount : Int) - (b.delCount : Int)) < 3 * (b.rowsLength : Int)))
  || decide (b.size < maxBlockSize / 2)

/-- One iteration of the candidate-scan loop of `saveDelta`: look the index
up in `blockList`, skip (`continue`) when the block is gone or not final,
pick it when it satisfies `defragCond`. -/
def defragPickOne (blockList : List (Nat × Block)) (idx : Nat) : Option Block :=
  match jsMapGet blockList idx with
  | none => none
  | some b => if b.final then (if defragCond b then some b else none) else none

/-- The candidate-scan loop of `saveDelta` (lines 409-423): iterate over
`blockSetDefrag` and collect the picked blocks. -/
def defragPick (blockList : List (Nat × Block)) (blockSetDefrag : List Nat) : List Block :=
  blockSetDefrag.filterMap (defragPickOne blockList)

theorem defragPickOne_eq_some {blockList : List (Nat × Block)} {idx : Nat} {b : Block} :
    defragPickOne blockList idx = some b ↔
      jsMapGet blockList idx = some b ∧ b.final = true ∧ defragCond b = true := by
  unfold defragPickOne
  cases hg : jsMapGet blockList idx with
  | none => simp
  | some b' =>
    cases hfin : b'.final <;> cases hc : defragCond b' <;>
      simp_all <;> aesop

/-- A non-final block satisfying the pick condition: one live row added,
then deleted, in a small never-finalized block. -/
def c2Block : Block :=
  { index := 1, delCount := 1, addCount := 1, size := 10, rows := none,
    rowsLength := 1, final := false }

/-- C2 counterexample: the claim says membership of a candidate in the picked
set is decided exactly by the size/fragmentation condition, but `saveDelta`
also skips every candidate that is not final (`if (!block || !block.final)
continue`).  The concrete block `c2Block` is a defrag candidate satisfying
the condition (`delCount > 0` and `addCount - delCount < rowsLength*0.6`),
yet the pick loop selects nothing. -/
theorem c2_counterexample :
    defragCond c2Block = true ∧ defragPick [(1, c2Block)] [1] = [] := by
  constructor
  · decide
  · rfl

/-- C2 (amended): a block is picked by the defrag scan iff its index is a
candidate, it is still present in `blockList`, it is final, and it satisfies
`delCount > 0 ∧ addCount - delCount < rowsLength*0.6` or
`size < maxBlockSize/2`. -/
theorem c2_defrag_pick_characterization
    (blockList : List (Nat × Block)) (blockSetDefrag : List Nat) (b : Block) :
    b ∈ defragPick blockList blockSetDefrag ↔
      ∃ idx ∈ blockSetDefrag, jsMapGet blockList idx = some b ∧
        b.final = true ∧ defragCond b = true := by
  unfold defragPick
  rw [List.mem_filterMap]
  constructor
  · rintro ⟨idx, hidx, hf⟩
    exact ⟨idx, hidx, defragPickOne_eq_some.mp hf⟩
  · rintro ⟨idx, hidx, hg, hfin, hc⟩
    exact ⟨idx, hidx, defragPickOne_eq_some.mpr ⟨hg, hfin, hc⟩⟩

/-! ## C7: shard lock counters and the closable set
(src/ShardedTable.js, `_updateShardLockList`, lines 164-192) -/

structure LockRec where
  lock : Int
  pers : Int
deriving Repr, DecidableEq

/-- The part of a `ShardedTable`'s state read and written by
`_updateShardLockList`.  (`_checkCachedShardLock` only touches the
cached-shard lock queue gate, not these sets.) -/
structure ShardLockState where
  shardLockList : List (String × LockRec)
  closableShardNames : List String
  cachedShardNames : List String
deriving Repr, DecidableEq

/-- `_updateShardLockList(shard, lockN, persN)`: bump the counters (clamped
at zero) and re-derive the shard's membership in `closableShardNames` and
`cachedShardNames`. -/
def updateShardLockList (s : ShardLockState) (shard : String) (lockN persN : Int) :
    ShardLockState :=
  let rec0 := (jsMapGet s.shardLockList shard).getD ⟨0, 0⟩
  let lock1 := rec0.lock + lockN
  let lock2 := if lock1 < 0 then 0 else lock1
  let pers1 := rec0.pers + persN
  let pers2 := if pers1 < 0 then 0 else pers1
  let rec1 : LockRec := ⟨lock2, pers2⟩
  let m := jsMapSet s.shardLockList shard rec1
  if 0 < pers2 then
    { shardLockList := m
      closableShardNames := jsSetDel s.closableShardNames shard
      cachedShardNames := jsSetDel s.cachedShardNames shard }
  else if 0 < lock2 then
    { shardLockList := m
      closableShardNames := jsSetDel s.closableShardNames shard
      cachedShardNames := jsSetAdd s.cachedShardNames shard }
  else
    { shardLockList := m
      closableShardNames := jsSetAdd s.closableShardNames shard
      cachedShardNames := jsSetAdd s.cachedShardNames shard }

/-- The lock counter recorded for a shard (0 when no record exists yet). -/
def lockOf (s : ShardLockState) (shard : String) : Int :=
  ((jsMapGet s.shardLockList shard).getD ⟨0, 0⟩).lock

/-- The persistent-pin counter recorded for a shard. -/
def persOf (s : ShardLockState) (shard : String) : Int :=
  ((jsMapGet s.shardLockList shard).getD ⟨0, 0⟩).pers

/-- A sequence of `_updateShardLockList` calls
(lock/unlock/persistent-pin operations), applied in order. -/
def applyLockOps (s : ShardLockState) : List (String × Int × Int) → ShardLockState
  | [] => s
  | (shard, l, p) :: rest => applyLockOps (updateShardLockList s shard l p) rest

theorem mem_jsSetAdd {α : Type _} [DecidableEq α] (s : List α) (x y : α) :
    y ∈ jsSetAdd s x ↔ y ∈ s ∨ y = x := by
  unfold jsSetAdd
  by_cases h : x ∈ s
  · simp only [if_pos h]
    constructor
    · exact Or.inl
    · rintro (hy | rfl)
      · exact hy
      · exact h
  · simp [if_neg h]

theorem mem_jsSetDel {α : Type _} [DecidableEq α] (s : List α) (x y : α) :
    y ∈ jsSetDel s x ↔ y ∈ s ∧ y ≠ x := by
  unfold jsSetDel
  simp [List.mem_filter]

/-- After one `_updateShardLockList` call, the affected shard is in the
closable set iff its (new) lock and pers counters are both zero. -/
theorem updateShardLockList_closable_iff (s : ShardLockState) (shard : String)
    (lockN persN : Int) :
    (shard ∈ (updateShardLockList s shard lockN persN).closableShardNames ↔
      lockOf (updateShardLockList s shard lockN persN) shard = 0 ∧
      persOf (updateShardLockList s shard lockN persN) shard = 0) := by
  unfold updateShardLockList lockOf persOf
  set rec0 := (jsMapGet s.shardLockList shard).getD ⟨0, 0⟩ with hrec0
  set lock2 := if rec0.lock + lockN < 0 then 0 else rec0.lock + lockN with hlock2
  set pers2 := if rec0.pers + persN < 0 then 0 else rec0.pers + persN with hpers2
  have hlock2nonneg : (0 : Int) ≤ lock2 := by rw [hlock2]; split <;> omega
  have hpers2nonneg : (0 : Int) ≤ pers2 := by rw [hpers2]; split <;> omega
  by_cases hp : (0 : Int) < pers2
  · simp only [if_pos hp, jsMapGet_jsMapSet_self, Option.getD_some, mem_jsSetDel]
    constructor
    · rintro ⟨_, hne⟩; exact absurd rfl hne
    · rintro ⟨_, hpz⟩; omega
  · simp only [if_neg hp]
    by_cases hl : (0 : Int) < lock2
    · simp only [if_pos hl, jsMapGet_jsMapSet_self, Option.getD_some, mem_jsSetDel]
      constructor
      · rintro ⟨_, hne⟩; exact absurd rfl hne
      · rintro ⟨hlz, _⟩; omega
    · simp only [if_neg hl, jsMapGet_jsMapSet_self, Option.getD_some, mem_jsSetAdd]
      constructor
      · intro _; constructor <;> omega
      · intro _; simp

/-- Updates to a different shard touch neither this shard's lock record nor
its membership in the closable set. -/
theorem updateShardLockList_other (s : ShardLockState) (shard other : String)
    (lockN persN : Int) (h : shard ≠ other) :
    ((shard ∈ (updateShardLockList s other lockN persN).closableShardNames ↔
        shard ∈ s.closableShardNames) ∧
      lockOf (updateShardLockList s other lockN persN) shard = lockOf s shard ∧
      persOf (updateShardLockList s other lockN persN) shard = persOf s shard) := by
  unfold updateShardLockList lockOf persOf
  have hget : ∀ v, jsMapGet (jsMapSet s.shardLockList other v) shard =
      jsMapGet s.shardLockList shard := fun v =>
    jsMapGet_jsMapSet_ne s.shardLockList other shard v h
  set rec0 := (jsMapGet s.shardLockList other).getD ⟨0, 0⟩ with hrec0
  set lock2 := if rec0.lock + lockN < 0 then 0 else rec0.lock + lockN with hlock2
  set pers2 := if rec0.pers + persN < 0 then 0 else rec0.pers + persN with hpers2
  by_cases hp : (0 : Int) < pers2
  · simp only [if_pos hp, hget, mem_jsSetDel, and_true, true_and]
    constructor
    · rintro ⟨hm, _⟩; exact hm
    · intro hm; exact ⟨hm, h⟩
  · simp only [if_neg hp]
    by_cases hl : (0 : Int) < lock2
    · simp only [if_pos hl, hget, mem_jsSetDel, and_true, true_and]
      constructor
      · rintro ⟨hm, _⟩; exact hm
      · intro hm; exact ⟨hm, h⟩
    · simp only [if_neg hl, hget, mem_jsSetAdd, and_true, true_and]
      constructor
      · rintro (hm | rfl)
        · exact hm
        · exact absurd rfl h
      · exact Or.inl

/-- C7: after any sequence of lock/unlock/persistent-pin operations that
touches a shard at least once, the shard is a member of the closable set iff
both its lock counter and its pers counter are zero. -/
theorem c7_closable_iff_counters_zero (s0 : ShardLockState)
    (ops : List (String × Int × Int)) (shard : String)
    (h : shard ∈ ops.map (·.1)) :
    (shard ∈ (applyLockOps s0 ops).closableShardNames ↔
      lockOf (applyLockOps s0 ops) shard = 0 ∧
      persOf (applyLockOps s0 ops) shard = 0) := by
  induction ops generalizing s0 with
  | nil => simp at h
  | cons op rest ih =>
    obtain ⟨sh, l, p⟩ := op
    by_cases hrest : shard ∈ rest.map (·.1)
    · exact ih (updateShardLockList s0 sh l p) hrest
    · have hsh : sh = shard := by
        simp only [List.map_cons, List.mem_cons] at h
        rcases h with h | h
        · exact h.symm
        · exact absurd h hrest
      subst hsh
      -- the head op establishes the property; the remaining ops never touch `sh`
      have hbase := updateShardLockList_closable_iff s0 sh l p
      -- preservation along `rest`
      suffices hpres : ∀ (t : ShardLockState) (ops' : List (String × Int × Int)),
          sh ∉ ops'.map (·.1) →
          ((sh ∈ (applyLockOps t ops').closableShardNames ↔ sh ∈ t.closableShardNames) ∧
            lockOf (applyLockOps t ops') sh = lockOf t sh ∧
            persOf (applyLockOps t ops') sh = persOf t sh) by
        obtain ⟨hc, hl, hp⟩ := hpres (updateShardLockList s0 sh l p) rest hrest
        simp only [applyLockOps]
        rw [hc, hl, hp]
        exact hbase
      intro t ops' hno
      induction ops' generalizing t with
      | nil => simp [applyLockOps]
      | cons op' rest' ih' =>
        obtain ⟨sh', l', p'⟩ := op'
        simp only [List.map_cons, List.mem_cons, not_or] at hno
        obtain ⟨hne, hno'⟩ := hno
        have hother := updateShardLockList_other t sh sh' l' p' (Ne.symm (fun he => hne he.symm))
        obtain ⟨hc1, hl1, hp1⟩ := hother
        obtain ⟨hc2, hl2, hp2⟩ := ih' (updateShardLockList t sh' l' p') hno'
        simp only [applyLockOps]
        exact ⟨hc2.trans hc1, hl2.trans hl1, hp2.trans hp1⟩

/-- C7 witness: starting from the empty state, lock shard "a" then unlock
it; it ends closable with both counters zero. -/
theorem c7_closable_iff_counters_zero_witness :
    ("a" ∈ ([("a", (1 : Int), (0 : Int)), ("a", -1, 0)].map (·.1)) ∧
      ("a" ∈ (applyLockOps ⟨[], [], []⟩
          [("a", (1 : Int), (0 : Int)), ("a", -1, 0)]).closableShardNames ↔
        lockOf (applyLockOps ⟨[], [], []⟩
          [("a", (1 : Int), (0 : Int)), ("a", -1, 0)]) "a" = 0 ∧
        persOf (applyLockOps ⟨[], [], []⟩
          [("a", (1 : Int), (0 : Int)), ("a", -1, 0)]) "a" = 0)) :=
  ⟨by decide, c7_closable_iff_counters_zero ⟨[], [], []⟩
    [("a", (1 : Int), (0 : Int)), ("a", -1, 0)] "a" (by decide)⟩


/-! ## C9: block rows file names (src/TableRowsFile.js, `blockRowsFilePath`,
lines 320-325)

`index.toString()` renders the block index in decimal; `padStart(w, '0')`
left-pads with zeros up to width `w` (6 below one million, 12 otherwise),
and `.jem` is appended.  `natDecChars` embeds the decimal rendering (the
fuel argument of `natDecCharsF` only bounds the digit recursion). -/

def decDigitChar (d : Nat) : Char := Char.ofNat (48 + d)

def natDecCharsF : Nat → Nat → List Char
  | 0, _ => []
  | fuel+1, n =>
    if n < 10 then [decDigitChar n]
    else natDecCharsF fuel (n / 10) ++ [decDigitChar (n % 10)]

def natDecChars (n : Nat) : List Char := natDecCharsF (n + 1) n

theorem natDecCharsF_succ (fuel n : Nat) :
    natDecCharsF (fuel + 1) n = if n < 10 then [decDigitChar n]
      else natDecCharsF fuel (n / 10) ++ [decDigitChar (n % 10)] := rfl

theorem natDecCharsF_fuel : ∀ (fuel : Nat), ∀ n, n < fuel →
    natDecCharsF fuel n = natDecChars n := by
  intro fuel
  induction fuel using Nat.strong_induction_on with
  | _ fuel ih =>
    intro n h
    cases fuel with
    | zero => omega
    | succ f =>
      by_cases hn : n < 10
      · rw [natDecCharsF_succ, if_pos hn, natDecChars, natDecCharsF_succ, if_pos hn]
      · have hdiv : n / 10 < n := Nat.div_lt_self (by omega) (by omega)
        rw [natDecCharsF_succ, if_neg hn, natDecChars]
        cases n with
        | zero => omega
        | succ m =>
          rw [natDecCharsF_succ, if_neg hn]
          congr 1
          rw [ih f (by omega) ((m + 1) / 10) (by omega)]
          rw [ih (m + 1) (by omega) ((m + 1) / 10) (by omega)]

theorem natDecChars_eq (n : Nat) :
    natDecChars n = if n < 10 then [decDigitChar n]
      else natDecChars (n / 10) ++ [decDigitChar (n % 10)] := by
  by_cases hn : n < 10
  · rw [natDecChars, natDecCharsF_succ, if_pos hn, if_pos hn]
  · rw [natDecChars, natDecCharsF_succ, if_neg hn, if_neg hn]
    congr 1
    exact natDecCharsF_fuel n (n / 10) (Nat.div_lt_self (by omega) (by omega))

def charVal (c : Char) : Nat := c.toNat - 48

def IsDigitChar (c : Char) : Prop := 48 ≤ c.toNat ∧ c.toNat ≤ 57

def decVal (l : List Char) : Nat := l.foldl (fun a c => 10 * a + charVal c) 0

theorem toNat_decDigitChar (d : Nat) (h : d ≤ 9) : (decDigitChar d).toNat = 48 + d := by
  unfold decDigitChar
  interval_cases d <;> decide

theorem isDigit_decDigitChar (d : Nat) (h : d ≤ 9) : IsDigitChar (decDigitChar d) := by
  constructor <;> rw [toNat_decDigitChar d h] <;> omega

theorem charVal_decDigitChar (d : Nat) (h : d ≤ 9) : charVal (decDigitChar d) = d := by
  unfold charVal
  rw [toNat_decDigitChar d h]
  omega

theorem isDigit_natDecChars (n : Nat) : ∀ c ∈ natDecChars n, IsDigitChar c := by
  induction n using Nat.strong_induction_on with
  | _ n ih =>
    rw [natDecChars_eq]
    by_cases h : n < 10
    · simp only [if_pos h, List.mem_singleton]
      rintro c rfl
      exact isDigit_decDigitChar n (by omega)
    · simp only [if_neg h, List.mem_append, List.mem_singleton]
      rintro c (hc | rfl)
      · exact ih (n / 10) (Nat.div_lt_self (by omega) (by omega)) c hc
      · exact isDigit_decDigitChar (n % 10) (by omega)

theorem foldl_decVal (l : List Char) (a : Nat) :
    l.foldl (fun a c => 10 * a + charVal c) a = a * 10 ^ l.length + decVal l := by
  induction l generalizing a with
  | nil => simp [decVal]
  | cons c rest ih =>
    simp only [List.foldl_cons, List.length_cons, decVal, Nat.mul_zero, Nat.zero_add]
    rw [ih (10 * a + charVal c), ih (charVal c)]
    ring

theorem decVal_cons (c : Char) (l : List Char) :
    decVal (c :: l) = charVal c * 10 ^ l.length + decVal l := by
  have h := foldl_decVal l (charVal c)
  unfold decVal
  simp only [List.foldl_cons, Nat.mul_zero, Nat.zero_add]
  rw [h]
  rfl

theorem decVal_append_singleton (l : List Char) (c : Char) :
    decVal (l ++ [c]) = 10 * decVal l + charVal c := by
  unfold decVal
  simp [List.foldl_append]

theorem decVal_natDecChars (n : Nat) : decVal (natDecChars n) = n := by
  induction n using Nat.strong_induction_on with
  | _ n ih =>
    rw [natDecChars_eq]
    by_cases h : n < 10
    · simp only [if_pos h]
      simp [decVal, charVal_decDigitChar n (by omega)]
    · simp only [if_neg h]
      rw [decVal_append_singleton, ih (n / 10) (Nat.div_lt_self (by omega) (by omega)),
        charVal_decDigitChar (n % 10) (by omega)]
      omega

theorem decVal_lt_pow (l : List Char) (h : ∀ c ∈ l, IsDigitChar c) :
    decVal l < 10 ^ l.length := by
  induction l with
  | nil => simp [decVal]
  | cons c rest ih =>
    rw [decVal_cons]
    have hc : charVal c ≤ 9 := by
      have := h c (List.mem_cons_self _ _)
      unfold charVal IsDigitChar at *
      omega
    have hrest := ih (fun d hd => h d (List.mem_cons_of_mem _ hd))
    have hmul : charVal c * 10 ^ rest.length ≤ 9 * 10 ^ rest.length :=
      Nat.mul_le_mul_right _ hc
    simp only [List.length_cons, pow_succ]
    omega

theorem length_natDecChars_le (n : Nat) : ∀ k, 1 ≤ k → n < 10 ^ k →
    (natDecChars n).length ≤ k := by
  induction n using Nat.strong_induction_on with
  | _ n ih =>
    intro k hk h
    rw [natDecChars_eq]
    by_cases hn : n < 10
    · simp only [if_pos hn, List.length_singleton]
      omega
    · simp only [if_neg hn, List.length_append, List.length_singleton]
      have hk1 : 1 ≤ k - 1 := by
        rcases Nat.eq_or_lt_of_le hk with hke | hkl
        · exfalso
          rw [show k = 1 by omega] at h
          simp at h
          omega
        · omega
      have hdiv : n / 10 < 10 ^ (k - 1) := by
        rw [Nat.div_lt_iff_lt_mul (by omega)]
        calc n < 10 ^ k := h
        _ = 10 ^ (k - 1) * 10 := by
              rw [← pow_succ]
              congr 1
              omega
      have := ih (n / 10) (Nat.div_lt_self (by omega) (by omega)) (k - 1) hk1 hdiv
      omega

def padStartZeros (w : Nat) (s : List Char) : List Char :=
  List.replicate (w - s.length) '0' ++ s

theorem length_padStartZeros (w : Nat) (s : List Char) (h : s.length ≤ w) :
    (padStartZeros w s).length = w := by
  simp only [padStartZeros, List.length_append, List.length_replicate]
  omega

theorem decVal_padStartZeros (w : Nat) (s : List Char) :
    decVal (padStartZeros w s) = decVal s := by
  unfold padStartZeros
  induction (w - s.length) with
  | zero => simp
  | succ m ih =>
    rw [List.replicate_succ, List.cons_append, decVal_cons]
    have h0 : charVal '0' = 0 := by decide
    rw [h0]
    simpa using ih

theorem isDigit_padStartZeros (w : Nat) (s : List Char) (h : ∀ c ∈ s, IsDigitChar c) :
    ∀ c ∈ padStartZeros w s, IsDigitChar c := by
  intro c hc
  rcases List.mem_append.mp hc with hc | hc
  · have : c = '0' := List.eq_of_mem_replicate hc
    subst this
    constructor <;> decide
  · exact h c hc

theorem lex_of_decVal_lt :
    ∀ (s t : List Char), s.length = t.length →
      (∀ c ∈ s, IsDigitChar c) → (∀ c ∈ t, IsDigitChar c) →
      decVal s < decVal t → List.Lex (· < ·) s t := by
  intro s
  induction s with
  | nil =>
    intro t hlen _ _ hv
    cases t with
    | nil => simp [decVal] at hv
    | cons d ds => simp at hlen
  | cons c cs ih =>
    intro t hlen hds hdt hv
    cases t with
    | nil => simp at hlen
    | cons d ds =>
      have hlen' : cs.length = ds.length := by simpa using hlen
      have hdc : IsDigitChar c := hds c (List.mem_cons_self _ _)
      have hdd : IsDigitChar d := hdt d (List.mem_cons_self _ _)
      rcases lt_trichotomy c.toNat d.toNat with hcd | hcd | hcd
      · exact List.Lex.rel (show c < d from hcd)
      · have hceq : c = d := Char.eq_of_val_eq (UInt32.ext hcd)
        subst hceq
        apply List.Lex.cons
        apply ih ds hlen' (fun x hx => hds x (List.mem_cons_of_mem _ hx))
          (fun x hx => hdt x (List.mem_cons_of_mem _ hx))
        rw [decVal_cons, decVal_cons, hlen'] at hv
        omega
      · exfalso
        rw [decVal_cons, decVal_cons] at hv
        have hvc : charVal d + 1 ≤ charVal c := by
          unfold charVal IsDigitChar at *
          omega
        have hbound : decVal ds < 10 ^ ds.length :=
          decVal_lt_pow ds (fun x hx => hdt x (List.mem_cons_of_mem _ hx))
        have h1 : charVal d * 10 ^ ds.length + decVal ds < (charVal d + 1) * 10 ^ ds.length := by
          ring_nf
          omega
        have h2 : (charVal d + 1) * 10 ^ ds.length ≤ charVal c * 10 ^ cs.length := by
          rw [hlen']
          exact Nat.mul_le_mul_right _ hvc
        omega

def blockRowsFilePath (tablePath : String) (index : Nat) : String :=
  if index < 1000000 then
    tablePath ++ "/" ++ String.mk (padStartZeros 6 (natDecChars index)) ++ ".jem"
  else
    tablePath ++ "/" ++ String.mk (padStartZeros 12 (natDecChars index)) ++ ".jem"

theorem lexAppendLeft (p s t : List Char) (h : List.Lex (· < ·) s t) :
    List.Lex (· < ·) (p ++ s) (p ++ t) := by
  induction p with
  | nil => exact h
  | cons c cs ih => exact List.Lex.cons ih

theorem lexAppendRight (s t : List Char) (h : List.Lex (· < ·) s t) :
    ∀ (u v : List Char), s.length = t.length → List.Lex (· < ·) (s ++ u) (t ++ v) := by
  induction h with
  | nil => intro u v hlen; simp at hlen
  | @cons a as bs hr ih => intro u v hlen; exact List.Lex.cons (ih u v (by simpa using hlen))
  | @rel a as b bs hr => intro u v _; exact List.Lex.rel hr

theorem toList_blockRowsFilePath (tablePath : String) (index : Nat) :
    (blockRowsFilePath tablePath index).toList =
      (tablePath.toList ++ "/".toList) ++
        (padStartZeros (if index < 1000000 then 6 else 12) (natDecChars index) ++ ".jem".toList) := by
  unfold blockRowsFilePath
  by_cases h : index < 1000000 <;>
    simp [h, String.toList, String.data_append, List.append_assoc]

theorem c9_amended (tablePath : String) (i j : Nat) (hij : i < j)
    (hclass : j < 1000000 ∨ (1000000 ≤ i ∧ j < 10 ^ 12)) :
    blockRowsFilePath tablePath i < blockRowsFilePath tablePath j := by
  rw [String.lt_iff_toList_lt, toList_blockRowsFilePath, toList_blockRowsFilePath]
  apply lexAppendLeft
  have core : ∀ w, 1 ≤ w → i < 10 ^ w → j < 10 ^ w →
      List.Lex (· < ·)
        (padStartZeros w (natDecChars i) ++ ".jem".toList)
        (padStartZeros w (natDecChars j) ++ ".jem".toList) := by
    intro w hw hi hj
    apply lexAppendRight
    · apply lex_of_decVal_lt
      · rw [length_padStartZeros _ _ (length_natDecChars_le i w hw hi),
          length_padStartZeros _ _ (length_natDecChars_le j w hw hj)]
      · exact isDigit_padStartZeros _ _ (isDigit_natDecChars i)
      · exact isDigit_padStartZeros _ _ (isDigit_natDecChars j)
      · rw [decVal_padStartZeros, decVal_padStartZeros, decVal_natDecChars,
          decVal_natDecChars]
        exact hij
    · rw [length_padStartZeros _ _ (length_natDecChars_le i w hw hi),
        length_padStartZeros _ _ (length_natDecChars_le j w hw hj)]
  rcases hclass with hj6 | ⟨hi12, hj12⟩
  · have hi6 : i < 1000000 := by omega
    rw [if_pos hi6, if_pos hj6]
    exact core 6 (by omega) (by norm_num; omega) (by norm_num; omega)
  · have hj6 : ¬ j < 1000000 := by omega
    have hi6 : ¬ i < 1000000 := by omega
    rw [if_neg hi6, if_neg hj6]
    exact core 12 (by omega) (by norm_num; omega) (by norm_num; omega)

theorem c9_counterexample :
    (999999 < 1000000 ∧
      blockRowsFilePath "tbl" 999999 = "tbl/999999.jem" ∧
      blockRowsFilePath "tbl" 1000000 = "tbl/000001000000.jem" ∧
      ¬ (blockRowsFilePath "tbl" 999999 < blockRowsFilePath "tbl" 1000000)) := by
  have h1 : blockRowsFilePath "tbl" 999999 = "tbl/999999.jem" := by
    unfold blockRowsFilePath
    rw [if_pos (by norm_num)]
    decide
  have h2 : blockRowsFilePath "tbl" 1000000 = "tbl/000001000000.jem" := by
    unfold blockRowsFilePath
    rw [if_neg (by norm_num)]
    decide
  have hlt : ("tbl/000001000000.jem" : String) < "tbl/999999.jem" := by
    rw [String.lt_iff_toList_lt]
    refine List.Lex.cons (List.Lex.cons (List.Lex.cons (List.Lex.cons (List.Lex.rel ?_))))
    decide
  refine ⟨by norm_num, h1, h2, ?_⟩
  rw [h1, h2]
  intro hcon
  rw [String.lt_iff_toList_lt] at hcon hlt
  exact lt_asymm hcon hlt

/-- C9 (amended) witness: two indexes in the 6-wide class. -/
theorem c9_amended_witness :
    (3 < 5 ∧ ((5 : Nat) < 1000000 ∨ (1000000 ≤ 3 ∧ 5 < 10 ^ 12)) ∧
      blockRowsFilePath "tbl" 3 < blockRowsFilePath "tbl" 5) :=
  ⟨by norm_num, Or.inl (by norm_num),
    c9_amended "tbl" 3 5 (by norm_num) (Or.inl (by norm_num))⟩

/-! ## C6: summary-map dumps (src/TableRowsFile.js, `dumpMaps`, lines 366-392)

For each of the two summary maps the method stats the open `.1` journal fd,
and when the dump condition holds it: writes the serialized map through
`writeFinal` to the `.2` temporary, renames `.2` over `.0`, closes the
journal fd, unlinks the `.1` journal, and records the new `.0` size.
`enc` stands for the `writeFinal` encoding ('1'+data, or '2'+deflate). -/

structure DumpFileState where
  file0 : Option String
  file1 : Option String
  file2 : Option String
  size0 : Nat
deriving Repr, DecidableEq

/-- The dump condition of `dumpMaps`:
`(size1 > minFileDumpSize && size1 > size0) || size1 > maxFileDumpSize`. -/
def dumpTrigger (size1 size0 : Nat) : Bool :=
  (decide (minFileDumpSize < size1) && decide (size0 < size1))
  || decide (maxFileDumpSize < size1)

/-- The per-map body of `dumpMaps` (the fd on the `.1` journal is open, so
the journal file exists; its stat size is its length). -/
def dumpOneMap (enc : String → String) (d : DumpFileState) (serialized : String) :
    DumpFileState :=
  match d.file1 with
  | none => d
  | some j =>
    if dumpTrigger j.length d.size0 then
      { file0 := some (enc serialized)   -- writeFinal to `.2`, renamed over `.0`
        file1 := none                    -- `.1` unlinked after the fd is closed
        file2 := none                    -- the temporary was renamed away
        size0 := (enc serialized).length }
    else d

structure DumpMapsState where
  blockindex : DumpFileState
  blocklist : DumpFileState
deriving Repr, DecidableEq

/-- `dumpMaps`: the blockIndex dump followed by the blockList dump, each
guarded by its own condition on its own files. -/
def dumpMaps (enc : String → String) (s : DumpMapsState) (biData blData : String) :
    DumpMapsState :=
  { blockindex := dumpOneMap enc s.blockindex biData
    blocklist := dumpOneMap enc s.blocklist blData }

theorem dumpTrigger_iff (size1 size0 : Nat) :
    dumpTrigger size1 size0 = true ↔
      (minFileDumpSize < size1 ∧ size0 < size1) ∨ maxFileDumpSize < size1 := by
  unfold dumpTrigger
  simp

/-- C6: for each summary map, `dumpMaps` rewrites the `.0` dump (to the
finalized serialization of the in-memory map) and unlinks the `.1` journal
exactly when the journal size exceeds `minFileDumpSize` and the recorded
`.0` size, or exceeds `maxFileDumpSize`; otherwise that map's files are
left unchanged.  The two maps are handled independently. -/
theorem c6_dump_condition (enc : String → String) (s : DumpMapsState)
    (biData blData : String) (jbi jbl : String)
    (h1 : s.blockindex.file1 = some jbi) (h2 : s.blocklist.file1 = some jbl) :
    ((if (minFileDumpSize < jbi.length ∧ s.blockindex.size0 < jbi.length) ∨
          maxFileDumpSize < jbi.length
      then (dumpMaps enc s biData blData).blockindex =
          { file0 := some (enc biData), file1 := none, file2 := none,
            size0 := (enc biData).length }
      else (dumpMaps enc s biData blData).blockindex = s.blockindex) ∧
     (if (minFileDumpSize < jbl.length ∧ s.blocklist.size0 < jbl.length) ∨
          maxFileDumpSize < jbl.length
      then (dumpMaps enc s biData blData).blocklist =
          { file0 := some (enc blData), file1 := none, file2 := none,
            size0 := (enc blData).length }
      else (dumpMaps enc s biData blData).blocklist = s.blocklist)) := by
  constructor
  · show (if _ then dumpOneMap enc s.blockindex biData = _
      else dumpOneMap enc s.blockindex biData = _)
    unfold dumpOneMap
    rw [h1]
    dsimp only
    by_cases hc : (minFileDumpSize < jbi.length ∧ s.blockindex.size0 < jbi.length) ∨
        maxFileDumpSize < jbi.length
    · rw [if_pos hc, if_pos ((dumpTrigger_iff _ _).mpr hc)]
    · rw [if_neg hc, if_neg (fun ht => hc ((dumpTrigger_iff _ _).mp ht))]
  · show (if _ then dumpOneMap enc s.blocklist blData = _
      else dumpOneMap enc s.blocklist blData = _)
    unfold dumpOneMap
    rw [h2]
    dsimp only
    by_cases hc : (minFileDumpSize < jbl.length ∧ s.blocklist.size0 < jbl.length) ∨
        maxFileDumpSize < jbl.length
    · rw [if_pos hc, if_pos ((dumpTrigger_iff _ _).mpr hc)]
    · rw [if_neg hc, if_neg (fun ht => hc ((dumpTrigger_iff _ _).mp ht))]

/-- C6 witness: tiny journals on both maps (condition false), so both maps
are untouched. -/
theorem c6_dump_condition_witness :
    ((⟨⟨none, some "ab", none, 0⟩, ⟨none, some "c", none, 7⟩⟩ :
        DumpMapsState).blockindex.file1 = some "ab" ∧
      (⟨⟨none, some "ab", none, 0⟩, ⟨none, some "c", none, 7⟩⟩ :
        DumpMapsState).blocklist.file1 = some "c" ∧
      (dumpMaps id ⟨⟨none, some "ab", none, 0⟩, ⟨none, some "c", none, 7⟩⟩
          "x" "y").blockindex = ⟨none, some "ab", none, 0⟩ ∧
      (dumpMaps id ⟨⟨none, some "ab", none, 0⟩, ⟨none, some "c", none, 7⟩⟩
          "x" "y").blocklist = ⟨none, some "c", none, 7⟩) := by
  have h := c6_dump_condition id
      ⟨⟨none, some "ab", none, 0⟩, ⟨none, some "c", none, 7⟩⟩ "x" "y" "ab" "c" rfl rfl
  rw [if_neg (by decide), if_neg (by decide)] at h
  exact ⟨rfl, rfl, h.1, h.2⟩

/-! ## C4: the tolerant block-file reader (src/TableRowsFile.js, `loadFile`,
lines 223-261)

The first byte is the framing flag: `'2'` (50) means finalized+compressed
(the rest of the buffer is inflated and then parsed), `'1'` (49) means
finalized (the flag byte is overwritten with a space and the whole buffer
parsed), anything else is treated as an unfinalized journal.  In the journal
case the flag byte is overwritten with `' '`; then if the last byte is `','`
it is overwritten with `']'`, otherwise (corrupted or empty journal) in
`allowCorrupted` mode the buffer is truncated just before its last comma
(when one exists) and `']'` is appended, and outside `allowCorrupted` mode
`']'` is appended as is.  The `JSON.parse` step is outside this model: the
result below is the exact byte string handed to the parser. -/

inductive FileContent where
  | compressed (body : List Char)
  | plain (body : List Char)
deriving Repr, DecidableEq

/-- `buf.lastIndexOf(',')`: the greatest index holding `','`. -/
def lastIndexOfComma : List Char → Option Nat
  | [] => none
  | c :: rest =>
    match lastIndexOfComma rest with
    | some k => some (k + 1)
    | none => if c = ',' then some 0 else none

def loadFile (allowCorrupted : Bool) (buf : List Char) : Except String FileContent :=
  match buf with
  | [] => .error "TableRowsFile: file is empty"
  | flag :: rest =>
    if flag = '2' then
      .ok (.compressed rest)
    else if flag = '1' then
      .ok (.plain (' ' :: rest))
    else
      let buf1 := ' ' :: rest
      if buf1.getLast (by simp) = ',' then
        .ok (.plain (buf1.dropLast ++ [']']))
      else
        let buf2 :=
          if allowCorrupted then
            match lastIndexOfComma buf1 with
            | some k => buf1.take k
            | none => buf1
          else buf1
        .ok (.plain (buf2 ++ [']']))

/-- C4: flag `'1'` and flag `'2'` files are accepted as finalized; for a
flag-`'0'` file whose last byte is a comma the comma is replaced by `']'`;
when the last byte is not a comma, `allowCorrupted` mode truncates at the
last comma (when present) before appending `']'`, while without
`allowCorrupted` only `']'` is appended. -/
theorem c4_loadFile_flag_handling (ac : Bool) (rest : List Char) :
    (loadFile ac ('1' :: rest) = .ok (.plain (' ' :: rest))) ∧
    (loadFile ac ('2' :: rest) = .ok (.compressed rest)) ∧
    ((' ' :: rest).getLast (by simp) = ',' →
      loadFile ac ('0' :: rest) = .ok (.plain ((' ' :: rest).dropLast ++ [']']))) ∧
    ((' ' :: rest).getLast (by simp) ≠ ',' →
      ∀ k, lastIndexOfComma (' ' :: rest) = some k →
        loadFile true ('0' :: rest) = .ok (.plain ((' ' :: rest).take k ++ [']']))) ∧
    ((' ' :: rest).getLast (by simp) ≠ ',' →
      lastIndexOfComma (' ' :: rest) = none →
        loadFile true ('0' :: rest) = .ok (.plain ((' ' :: rest) ++ [']']))) ∧
    ((' ' :: rest).getLast (by simp) ≠ ',' →
      loadFile false ('0' :: rest) = .ok (.plain ((' ' :: rest) ++ [']']))) := by
  refine ⟨?_, ?_, ?_, ?_, ?_, ?_⟩
  · simp [loadFile]
  · rfl
  · intro hlast
    simp [loadFile, hlast]
  · intro hlast k hk
    simp [loadFile, hlast, hk]
  · intro hlast hk
    simp [loadFile, hlast, hk]
  · intro hlast
    simp [loadFile, hlast]

/-- C4 witness: the journal body `[[1,{}],` (after the flag) ends in a
comma; truncation cases exercised on `[[1,{}],x`. -/
theorem c4_loadFile_flag_handling_witness :
    ((' ' :: "[[1,{}],".data).getLast (by simp) = ',' ∧
      loadFile true ('0' :: "[[1,{}],".data) =
        .ok (.plain ((' ' :: "[[1,{}],".data).dropLast ++ [']'])) ∧
      (' ' :: "[[1,{}],x".data).getLast (by simp) ≠ ',' ∧
      lastIndexOfComma (' ' :: "[[1,{}],x".data) = some 8 ∧
      loadFile true ('0' :: "[[1,{}],x".data) =
        .ok (.plain ((' ' :: "[[1,{}],x".data).take 8 ++ [']'])) ∧
      loadFile false ('0' :: "[[1,{}],x".data) =
        .ok (.plain ((' ' :: "[[1,{}],x".data) ++ [']']))) := by
  refine ⟨by decide, ?_, by decide, by decide, ?_, ?_⟩
  · exact (c4_loadFile_flag_handling true "[[1,{}],".data).2.2.1 (by decide)
  · exact (c4_loadFile_flag_handling true "[[1,{}],x".data).2.2.2.1 (by decide) 8 (by decide)
  · exact (c4_loadFile_flag_handling false "[[1,{}],x".data).2.2.2.2.2 (by decide)

/-! ## The row storage engine state (src/TableRowsFile.js)

The mutable state of a `TableRowsFile` instance, restricted to the fields
the claims are about.  Disk contents read back during an operation (block
files re-read by `loadBlock`/`finalizeBlocks`, the `blockindex.*` /
`blocklist.*` data read by `load`) enter the model as explicit arguments,
since the model does not carry the file system.  `idLen` stands for
`JSON.stringify(id).length` and `jsonOfRow` for `JSON.stringify(row)`
(rows are opaque payloads). -/

structure Delta where
  blockIndex : List (JsId × Nat)
  blockList : List (Nat × Nat)
  blockRows : List (Nat × JsId × String)
  delFiles : List String
deriving Repr, DecidableEq

def emptyDelta : Delta := ⟨[], [], [], []⟩

structure TRF where
  tablePath : String
  blockIndex : List (JsId × Nat)
  currentBlockIndex : Nat
  lastSavedBlockIndex : Nat
  blockList : List (Nat × Block)
  blockSetDefrag : List Nat
  blocksNotFinalized : List Nat
  loadedBlocks : List Nat
  newBlocks : List Nat
  deltas : List (Nat × Delta)
  defragCandidates : List Block
  loadedBlocksCount : Nat
deriving Repr, DecidableEq

/-- The constructor: `cacheSize || 5` makes 0 (and undefined) fall back
to 5, after which non-positive values are clamped to 0.
(`this.defragCandidates` is created lazily by `saveDelta`; it is modelled
as initially empty.) -/
def TRF.initial (tablePath : String) (cacheSize : Int) : TRF :=
  { tablePath := tablePath
    blockIndex := []
    currentBlockIndex := 0
    lastSavedBlockIndex := 0
    blockList := []
    blockSetDefrag := []
    blocksNotFinalized := []
    loadedBlocks := []
    newBlocks := []
    deltas := []
    defragCandidates := []
    loadedBlocksCount := (if cacheSize = 0 then 5 else cacheSize).toNat }

/-- `getDelta(deltaStep)`: the delta of the step, empty when fresh. -/
def getDelta (s : TRF) (step : Nat) : Delta :=
  (jsMapGet s.deltas step).getD emptyDelta

/-- Pushing onto a delta mutates the object stored in `this.deltas`
(which `getDelta` inserts when absent). -/
def modifyDelta (s : TRF) (step : Nat) (f : Delta → Delta) : TRF :=
  { s with deltas := jsMapSet s.deltas step (f (getDelta s step)) }

def pushDeltaBlockIndex (s : TRF) (step : Nat) (e : JsId × Nat) : TRF :=
  modifyDelta s step (fun d => { d with blockIndex := d.blockIndex ++ [e] })

def pushDeltaBlockList (s : TRF) (step : Nat) (e : Nat × Nat) : TRF :=
  modifyDelta s step (fun d => { d with blockList := d.blockList ++ [e] })

def pushDeltaBlockRows (s : TRF) (step : Nat) (e : Nat × JsId × String) : TRF :=
  modifyDelta s step (fun d => { d with blockRows := d.blockRows ++ [e] })

def pushDeltaDelFile (s : TRF) (step : Nat) (f : String) : TRF :=
  modifyDelta s step (fun d => { d with delFiles := d.delFiles ++ [f] })

/-- `createNewBlock()` (lines 131-147). -/
def createNewBlock (s : TRF) : TRF × Block :=
  let idx := s.currentBlockIndex + 1
  let b : Block :=
    { index := idx, delCount := 0, addCount := 0, size := 0,
      rows := some [], rowsLength := 0, final := false }
  ({ s with
      currentBlockIndex := idx
      blockList := jsMapSet s.blockList idx b
      newBlocks := s.newBlocks ++ [idx]
      blocksNotFinalized := jsSetAdd s.blocksNotFinalized idx }, b)

/-- The tail of `addToCurrentBlock` (lines 160-173), once the target block
`b` has been chosen: set the row into `b.rows`, bump the counters and the
encoded size, journal the block and the row, and return `b.index`.  `none`
models the `'something has gone wrong'` throw when `b.rows` is not in
memory. -/
def addRowToBlock (idLen : JsId → Nat) (u : TRF) (b : Block) (id : JsId) (row : String)
    (rowStr : String) (deltaStep : Nat) : Option (TRF × Nat) :=
  match b.rows with
  | none => none
  | some rows =>
    let rows1 := jsMapSet rows id row
    let b1 : Block :=
      { b with
          rows := some rows1
          addCount := b.addCount + 1
          size := b.size + idLen id + rowStr.length
          rowsLength := rows1.length }
    let s3 := { u with blockList := jsMapSet u.blockList b.index b1 }
    let s4 := pushDeltaBlockList s3 deltaStep (b.index, 1)
    let s5 := pushDeltaBlockRows s4 deltaStep (b.index, id, row)
    some (s5, b.index)

/-- `addToCurrentBlock(id, row, rowStr, deltaStep, delta)` (lines 149-174):
take the current block, creating one when there is none; roll over to a
fresh block when the current one's encoded size exceeds `maxBlockSize`;
then append the row to the chosen block. -/
def addToCurrentBlock (idLen : JsId → Nat) (s : TRF) (id : JsId) (row : String)
    (rowStr : String) (deltaStep : Nat) : Option (TRF × Nat) :=
  let sb :=
    match jsMapGet s.blockList s.currentBlockIndex with
    | some b => (s, b)
    | none => createNewBlock s
  let sb2 := if maxBlockSize < sb.2.size then createNewBlock sb.1 else sb
  addRowToBlock idLen sb2.1 sb2.2 id row rowStr deltaStep

/-- `deleteRow(id, deltaStep, delta)` (lines 80-95). -/
def deleteRow (s : TRF) (id : JsId) (deltaStep : Nat) : TRF :=
  match jsMapGet s.blockIndex id with
  | none => s
  | some bi =>
    let s1 :=
      match jsMapGet s.blockList bi with
      | some _ =>
        let sa := { s with
          blockList := jsMapModify s.blockList bi
            (fun b => { b with delCount := b.delCount + 1 })
          blockSetDefrag := jsSetAdd s.blockSetDefrag bi }
        pushDeltaBlockList sa deltaStep (bi, 1)
      | none => s
    let s2 := { s1 with blockIndex := jsMapDel s1.blockIndex id }
    pushDeltaBlockIndex s2 deltaStep (id, 0)

/-- `setRow(id, row, rowStr, deltaStep)` (lines 68-78). -/
def setRow (idLen : JsId → Nat) (s : TRF) (id : JsId) (row : String) (rowStr : String)
    (deltaStep : Nat) : Option TRF :=
  let s1 := if (jsMapGet s.blockIndex id).isSome then deleteRow s id deltaStep else s
  match addToCurrentBlock idLen s1 id row rowStr deltaStep with
  | none => none
  | some si =>
    let s3 := { si.1 with blockIndex := jsMapSet si.1.blockIndex id si.2 }
    some (pushDeltaBlockIndex s3 deltaStep (id, si.2))

/-- `loadBlock(block)` (lines 276-293) as called from `getRow`: page the
block's rows in from its file (`diskRows` is the parsed file content) and
append it to `loadedBlocks`. -/
def loadBlockModel (s : TRF) (idx : Nat) (diskRows : List (JsId × String)) : TRF :=
  match jsMapGet s.blockList idx with
  | none => s
  | some b =>
    if b.rows.isSome then s
    else
      { s with
          blockList := jsMapModify s.blockList idx (fun bb => { bb with rows := some diskRows })
          loadedBlocks := s.loadedBlocks ++ [idx] }

/-- The `while` loop of `unloadBlocksIfNeeded` (lines 203-217): shift the
head of `loadedBlocks` while it is longer than `loadedBlocksCount`, and
null out the rows of every shifted block below `lastSavedBlockIndex`. -/
def evictLoop (lastSaved cnt : Nat) :
    List Nat → List (Nat × Block) → List Nat × List (Nat × Block)
  | [], bl => ([], bl)
  | i :: rest, bl =>
    if (i :: rest).length ≤ cnt then (i :: rest, bl)
    else if lastSaved ≤ i then evictLoop lastSaved cnt rest bl
    else evictLoop lastSaved cnt rest (jsMapModify bl i (fun b => { b with rows := none }))

/-- The timer body of `unloadBlocksIfNeeded` (lines 176-221): move the
already-saved indexes of `newBlocks` into `loadedBlocks`, then evict from
the head of `loadedBlocks` down to the cache size. -/
def unloadPass (s : TRF) : TRF :=
  let moved := s.newBlocks.filter (fun i => i < s.lastSavedBlockIndex)
  let nb := s.newBlocks.filter (fun i => ¬ i < s.lastSavedBlockIndex)
  let loaded := s.loadedBlocks ++ moved
  let ev := evictLoop s.lastSavedBlockIndex s.loadedBlocksCount loaded s.blockList
  { s with newBlocks := nb, loadedBlocks := ev.1, blockList := ev.2 }

/-- One iteration of the `finalizeBlocks` loop (lines 327-364): skip blocks
at or above `lastSavedBlockIndex`; otherwise rewrite the block's file in
finalized form (`finSize`/`finLen` are the byte size, plus one flag byte,
and the row count of the rewritten file), mark it final, remove it from
`blocksNotFinalized` and add it to `blockSetDefrag`. -/
def finalizeOne (s : TRF) (idx : Nat) (finSize finLen : Nat) : TRF :=
  if idx < s.lastSavedBlockIndex then
    let s1 :=
      match jsMapGet s.blockList idx with
      | some _ =>
        { s with
            blockList := jsMapModify s.blockList idx
              (fun b => { b with size := finSize, rowsLength := finLen, final := true }) }
      | none => s
    { s1 with
        blocksNotFinalized := jsSetDel s1.blocksNotFinalized idx
        blockSetDefrag := jsSetAdd s1.blockSetDefrag idx }
  else s

/-- `finalizeBlocks()`: iterate over a snapshot of `blocksNotFinalized`
(`k` models the early `destroyed` return: only the first `k` members are
visited; `k = length` is the undisturbed pass). -/
def finalizeBlocks (s : TRF) (finSize finLen : Nat → Nat) (k : Nat) : TRF :=
  (s.blocksNotFinalized.take k).foldl
    (fun acc idx => finalizeOne acc idx (finSize idx) (finLen idx)) s

/-- One iteration of the row-move loop inside the defrag `while` (lines
436-442): a row still living in the defragged block (`blockIndex[id] ==
block.index`) is re-added to the current block and re-pointed in
`blockIndex` and the delta. -/
def defragMoveStep (idLen : JsId → Nat) (jsonOfRow : String → String) (deltaStep : Nat)
    (bidx : Nat) (acc : Option TRF) (pr : JsId × String) : Option TRF :=
  match acc with
  | none => none
  | some st =>
    if jsMapGet st.blockIndex pr.1 = some bidx then
      match addToCurrentBlock idLen st pr.1 pr.2 (jsonOfRow pr.2) deltaStep with
      | none => none
      | some st2 =>
        some (pushDeltaBlockIndex
          { st2.1 with blockIndex := jsMapSet st2.1.blockIndex pr.1 st2.2 }
          deltaStep (pr.1, st2.2))
    else some st

/-- The body of the defrag `while` loop in `saveDelta` (lines 425-452) for
one candidate block: page its rows in when unloaded (`diskRows` is the file
content), move every still-live row into the current block, delete the
block from `blockList`, journal the deletion and queue the block's file for
unlinking. -/
def defragConsumeOne (idLen : JsId → Nat) (jsonOfRow : String → String) (deltaStep : Nat)
    (b : Block) (diskRows : List (JsId × String)) (s : TRF) : Option TRF :=
  let s1rows :=
    match b.rows with
    | some r => (s, r)
    | none =>
      ({ s with
          blockList := jsMapModify s.blockList b.index
            (fun bb => { bb with rows := some diskRows })
          loadedBlocks := s.loadedBlocks ++ [b.index] }, diskRows)
  let moved := s1rows.2.foldl (defragMoveStep idLen jsonOfRow deltaStep b.index)
    (some s1rows.1)
  match moved with
  | none => none
  | some s2 =>
    let s3 := { s2 with blockList := jsMapDel s2.blockList b.index }
    let s4 := pushDeltaBlockList s3 deltaStep (b.index, 0)
    some (pushDeltaDelFile s4 deltaStep (blockRowsFilePath s4.tablePath b.index))

/-- The data `saveDelta` reads back from the file system, and the stopping
points of its two `destroyed`-interruptible loops. -/
structure CommitOracle where
  diskRows : Nat → List (JsId × String)
  finSize : Nat → Nat
  finLen : Nat → Nat
  defragStop : Nat
  finStop : Nat

/-- `saveDelta(deltaStep)` (lines 394-543).  The journal appends to
`blockindex.1` / `blocklist.1` / the block-rows files, the `dumpMaps` call
and the `delFiles` unlinking only touch the file system and are outside the
state; `unloadBlocksIfNeeded()` from here only schedules the timer pass
(modelled as a separate transition). -/
def saveDelta (idLen : JsId → Nat) (jsonOfRow : String → String) (s : TRF)
    (deltaStep : Nat) (o : CommitOracle) : Option TRF :=
  let delta := getDelta s deltaStep
  -- `lastSavedBI` is computed before defragmentation appends to the delta
  let lastSavedBI :=
    match delta.blockRows.getLast? with
    | some r => r.1
    | none => 0
  let s1 :=
    if s.defragCandidates = [] ∧ s.blockSetDefrag ≠ [] then
      { s with
          defragCandidates := defragPick s.blockList s.blockSetDefrag
          blockSetDefrag := [] }
    else s
  let consumed := s1.defragCandidates.take o.defragStop
  let s2 := { s1 with defragCandidates := s1.defragCandidates.drop o.defragStop }
  let afterDefrag := consumed.foldl (fun acc b =>
    match acc with
    | none => none
    | some st => defragConsumeOne idLen jsonOfRow deltaStep b (o.diskRows b.index) st)
    (some s2)
  match afterDefrag with
  | none => none
  | some s3 =>
    let s4 :=
      if lastSavedBI ≠ 0 then { s3 with lastSavedBlockIndex := lastSavedBI } else s3
    let s5 := finalizeBlocks s4 o.finSize o.finLen o.finStop
    some { s5 with deltas := jsMapDel s5.deltas deltaStep }

/-! ### `load()` (lines 549-630) -/

/-- A record of the `blocklist.0` / `blocklist.1` files: either a block's
serialized metadata or a `{index, deleted:1}` tombstone. -/
inductive BlockListRec where
  | del (index : Nat)
  | blk (b : Block)
deriving Repr, DecidableEq

/-- `if (typeof(id) === 'number' && id >= autoIncrement) autoIncrement = id + 1`. -/
def autoStep (acc : Nat) (id : JsId) : Nat :=
  match id with
  | .num n => if acc ≤ n then n + 1 else acc
  | .str _ => acc

/-- `new Map(data)`. -/
def jsMapFromList (data : List (JsId × Nat)) : List (JsId × Nat) :=
  data.foldl (fun m p => jsMapSet m p.1 p.2) []

/-- The `fileNum === 0` branch of `loadBlockIndex`: replace the map by the
dump and scan its keys for the autoincrement seed. -/
def loadBlockIndexDump (data : List (JsId × Nat)) : List (JsId × Nat) × Nat :=
  let m := jsMapFromList data
  (m, (jsMapKeys m).foldl autoStep 0)

/-- The journal branch of `loadBlockIndex`: apply `(id, index)` records in
order; a positive index sets (and feeds the autoincrement scan), zero
deletes. -/
def loadBlockIndexJournal (data : List (JsId × Nat)) (m0 : List (JsId × Nat)) (a0 : Nat) :
    List (JsId × Nat) × Nat :=
  data.foldl (fun acc r =>
    if 0 < r.2 then (jsMapSet acc.1 r.1 r.2, autoStep acc.2 r.1)
    else (jsMapDel acc.1 r.1, acc.2)) (m0, a0)

/-- `loadBlockList(data)`: tombstones delete, block records are stored with
`rows = null` and raise `currentBlockIndex` when larger. -/
def loadBlockListData (data : List BlockListRec) (bl0 : List (Nat × Block)) (cur0 : Nat) :
    List (Nat × Block) × Nat :=
  data.foldl (fun acc r =>
    match r with
    | .del i => (jsMapDel acc.1 i, acc.2)
    | .blk b => (jsMapSet acc.1 b.index { b with rows := none },
        if acc.2 < b.index then b.index else acc.2)) (bl0, cur0)

/-- `load()`: rebuild `blockIndex` from the `blockindex.0` dump and the
`blockindex.1` journal (each `Option` is `none` when the file does not
exist), rebuild `blockList` and `currentBlockIndex` from `blocklist.0` and
`blocklist.1`, set `lastSavedBlockIndex = currentBlockIndex`, page in the
current block (`curRows` is its file content), pin it in `newBlocks`, reset
`loadedBlocks`, and rebuild `blocksNotFinalized` / extend `blockSetDefrag`.
Returns the new state and the autoincrement seed. -/
def load (s : TRF) (dump journal : Option (List (JsId × Nat)))
    (bl0 bl1 : Option (List BlockListRec)) (curRows : List (JsId × String)) :
    TRF × Nat :=
  let d0 :=
    match dump with
    | some d => loadBlockIndexDump d
    | none => ([], 0)
  let d1 :=
    match journal with
    | some j => loadBlockIndexJournal j d0.1 d0.2
    | none => d0
  let l0 :=
    match bl0 with
    | some d => loadBlockListData d [] 0
    | none => ([], 0)
  let l1 :=
    match bl1 with
    | some d => loadBlockListData d l0.1 l0.2
    | none => l0
  let s1 := { s with
      blockIndex := d1.1
      blockList := l1.1
      currentBlockIndex := l1.2
      lastSavedBlockIndex := l1.2 }
  let s2 :=
    match jsMapGet s1.blockList s1.currentBlockIndex with
    | some b =>
      let sl :=
        if b.rows.isSome then s1
        else
          { s1 with
              blockList := jsMapModify s1.blockList s1.currentBlockIndex
                (fun bb => { bb with rows := some curRows }) }
      { sl with
          newBlocks := sl.newBlocks ++ [s1.currentBlockIndex]
          loadedBlocks := [] }
    | none => s1
  let s3 := { s2 with
      blocksNotFinalized := s2.blockList.foldl
        (fun acc p => if p.2.final then acc else jsSetAdd acc p.2.index) []
      blockSetDefrag := s2.blockList.foldl
        (fun acc p => jsSetAdd acc p.2.index) s2.blockSetDefrag }
  (s3, d1.2)

/-- The reachable states of a `TableRowsFile`: the constructor state,
closed under the row interface (`setRow`, `deleteRow`, `getRow`'s block
paging), the timer eviction pass, `saveDelta`, `cancelDelta` and `load`
(which the owning table runs once, right after construction, before any
write has produced a delta). -/
inductive Reachable (idLen : JsId → Nat) (jsonOfRow : String → String) : TRF → Prop
  | init (tablePath : String) (cacheSize : Int) :
      Reachable idLen jsonOfRow (TRF.initial tablePath cacheSize)
  | set {s s' : TRF} (id : JsId) (row rowStr : String) (deltaStep : Nat) :
      Reachable idLen jsonOfRow s →
      setRow idLen s id row rowStr deltaStep = some s' →
      Reachable idLen jsonOfRow s'
  | del {s : TRF} (id : JsId) (deltaStep : Nat) :
      Reachable idLen jsonOfRow s →
      Reachable idLen jsonOfRow (deleteRow s id deltaStep)
  | getRowLoad {s : TRF} (idx : Nat) (diskRows : List (JsId × String)) :
      Reachable idLen jsonOfRow s →
      Reachable idLen jsonOfRow (loadBlockModel s idx diskRows)
  | unload {s : TRF} :
      Reachable idLen jsonOfRow s →
      Reachable idLen jsonOfRow (unloadPass s)
  | commit {s s' : TRF} (deltaStep : Nat) (o : CommitOracle) :
      Reachable idLen jsonOfRow s →
      saveDelta idLen jsonOfRow s deltaStep o = some s' →
      Reachable idLen jsonOfRow s'
  | cancel {s : TRF} (deltaStep : Nat) :
      Reachable idLen jsonOfRow s →
      Reachable idLen jsonOfRow { s with deltas := jsMapDel s.deltas deltaStep }
  | loadOp {s : TRF} (dump journal : Option (List (JsId × Nat)))
      (bl0 bl1 : Option (List BlockListRec)) (curRows : List (JsId × String)) :
      Reachable idLen jsonOfRow s →
      s.deltas = [] →
      Reachable idLen jsonOfRow (load s dump journal bl0 bl1 curRows).1

/-! ### The commit-bound invariant

`lastSavedBlockIndex` never exceeds `currentBlockIndex`: every index a
delta journals for block rows is the index of the block that received the
row, blocks never outlive `currentBlockIndex`, and `saveDelta` assigns
`lastSavedBlockIndex` from the last journalled row of the committed
delta. -/

/-- Every entry of `blockList` is stored under its own index, and no block
exceeds `currentBlockIndex`. -/
def BlockListWF (s : TRF) : Prop :=
  ∀ p ∈ s.blockList, p.2.index = p.1 ∧ p.1 ≤ s.currentBlockIndex

/-- Every pending delta's `blockRows` entries point at blocks at or below
`currentBlockIndex`. -/
def DeltaBound (s : TRF) : Prop :=
  ∀ p ∈ s.deltas, ∀ r ∈ p.2.blockRows, r.1 ≤ s.currentBlockIndex

def Inv (s : TRF) : Prop :=
  s.lastSavedBlockIndex ≤ s.currentBlockIndex ∧ BlockListWF s ∧ DeltaBound s

theorem mem_jsMapModify {α β : Type _} [DecidableEq α]
    {m : List (α × β)} {k : α} {f : β → β} {p : α × β} (h : p ∈ jsMapModify m k f) :
    ∃ q ∈ m, p = q ∨ (q.1 = k ∧ p = (k, f q.2)) := by
  unfold jsMapModify at h
  rcases List.mem_map.mp h with ⟨q, hq, hqe⟩
  by_cases hk : q.1 = k
  · exact ⟨q, hq, Or.inr ⟨hk, by rw [← hqe, if_pos hk]⟩⟩
  · exact ⟨q, hq, Or.inl (by rw [← hqe, if_neg hk])⟩

theorem mem_jsMapDel {α β : Type _} [DecidableEq α]
    {m : List (α × β)} {k : α} {p : α × β} (h : p ∈ jsMapDel m k) : p ∈ m :=
  List.mem_of_mem_filter h

theorem getDelta_blockRows_bound (s : TRF) (step : Nat) (h : DeltaBound s) :
    ∀ r ∈ (getDelta s step).blockRows, r.1 ≤ s.currentBlockIndex := by
  unfold getDelta
  cases hg : jsMapGet s.deltas step with
  | none => simp [emptyDelta]
  | some d =>
    simp only [Option.getD_some]
    exact h (step, d) (jsMapGet_mem hg)

theorem modifyDelta_inv (s : TRF) (step : Nat) (f : Delta → Delta)
    (hf : ∀ d, (∀ r ∈ d.blockRows, r.1 ≤ s.currentBlockIndex) →
      ∀ r ∈ (f d).blockRows, r.1 ≤ s.currentBlockIndex)
    (h : Inv s) : Inv (modifyDelta s step f) := by
  obtain ⟨h1, h2, h3⟩ := h
  refine ⟨h1, h2, ?_⟩
  intro p hp r hr
  rcases mem_jsMapSet hp with hp' | hp'
  · exact h3 p hp' r hr
  · subst hp'
    exact hf (getDelta s step) (getDelta_blockRows_bound s step h3) r hr

theorem pushDeltaBlockIndex_inv (s : TRF) (step : Nat) (e : JsId × Nat) (h : Inv s) :
    Inv (pushDeltaBlockIndex s step e) :=
  modifyDelta_inv s step _ (fun _ hd => hd) h

theorem pushDeltaBlockList_inv (s : TRF) (step : Nat) (e : Nat × Nat) (h : Inv s) :
    Inv (pushDeltaBlockList s step e) :=
  modifyDelta_inv s step _ (fun _ hd => hd) h

theorem pushDeltaDelFile_inv (s : TRF) (step : Nat) (f : String) (h : Inv s) :
    Inv (pushDeltaDelFile s step f) :=
  modifyDelta_inv s step _ (fun _ hd => hd) h

theorem pushDeltaBlockRows_inv (s : TRF) (step : Nat) (e : Nat × JsId × String)
    (he : e.1 ≤ s.currentBlockIndex) (h : Inv s) :
    Inv (pushDeltaBlockRows s step e) := by
  apply modifyDelta_inv s step _ _ h
  intro d hd r hr
  rcases List.mem_append.mp hr with hr' | hr'
  · exact hd r hr'
  · rw [List.mem_singleton.mp hr']
    exact he

theorem createNewBlock_spec (s : TRF) (h : Inv s) :
    Inv (createNewBlock s).1 ∧
    (createNewBlock s).1.currentBlockIndex = s.currentBlockIndex + 1 ∧
    (createNewBlock s).1.lastSavedBlockIndex = s.lastSavedBlockIndex ∧
    (createNewBlock s).2.index = s.currentBlockIndex + 1 ∧
    (createNewBlock s).2.rows = some [] ∧
    (createNewBlock s).1.deltas = s.deltas := by
  obtain ⟨h1, h2, h3⟩ := h
  refine ⟨⟨by simp [createNewBlock]; omega, ?_, ?_⟩, rfl, rfl, rfl, rfl, rfl⟩
  · intro p hp
    simp only [createNewBlock] at hp ⊢
    rcases mem_jsMapSet hp with hp' | hp'
    · have := h2 p hp'
      exact ⟨this.1, by omega⟩
    · subst hp'
      exact ⟨rfl, le_refl _⟩
  · intro p hp r hr
    simp only [createNewBlock] at hp ⊢
    have := h3 p hp r hr
    omega

/-- `Inv` does not mention `blockIndex`. -/
theorem inv_set_blockIndex (x : TRF) (bi : List (JsId × Nat)) (h : Inv x) :
    Inv { x with blockIndex := bi } := by
  obtain ⟨h1, h2, h3⟩ := h
  exact ⟨h1, h2, h3⟩

theorem addRowToBlock_spec (idLen : JsId → Nat) (u : TRF) (b : Block) (id : JsId)
    (row rowStr : String) (step : Nat) {s' : TRF} {i : Nat}
    (h : addRowToBlock idLen u b id row rowStr step = some (s', i))
    (hb : b.index ≤ u.currentBlockIndex) (hinv : Inv u) :
    Inv s' ∧ s'.currentBlockIndex = u.currentBlockIndex ∧
    s'.lastSavedBlockIndex = u.lastSavedBlockIndex ∧ i = b.index := by
  unfold addRowToBlock at h
  cases hrows : b.rows with
  | none => rw [hrows] at h; exact absurd h (by simp)
  | some rows =>
    rw [hrows] at h
    simp only [Option.some.injEq, Prod.mk.injEq] at h
    obtain ⟨hs, hi⟩ := h
    subst hs
    subst hi
    refine ⟨?_, rfl, rfl, rfl⟩
    apply pushDeltaBlockRows_inv
    · exact hb
    · apply pushDeltaBlockList_inv
      obtain ⟨h1, h2, h3⟩ := hinv
      refine ⟨h1, ?_, h3⟩
      intro p hp
      rcases mem_jsMapSet hp with hp' | hp'
      · exact h2 p hp'
      · subst hp'
        exact ⟨rfl, hb⟩

theorem addToCurrentBlock_spec (idLen : JsId → Nat) (s : TRF) (id : JsId)
    (row rowStr : String) (step : Nat) {s' : TRF} {i : Nat}
    (h : addToCurrentBlock idLen s id row rowStr step = some (s', i))
    (hinv : Inv s) :
    Inv s' ∧ s.currentBlockIndex ≤ s'.currentBlockIndex ∧
    s'.lastSavedBlockIndex = s.lastSavedBlockIndex := by
  unfold addToCurrentBlock at h
  cases hget : jsMapGet s.blockList s.currentBlockIndex with
  | some b =>
    rw [hget] at h
    dsimp only at h
    have hbIdx : b.index = s.currentBlockIndex := (hinv.2.1 _ (jsMapGet_mem hget)).1
    by_cases hsz : maxBlockSize < b.size
    · rw [if_pos hsz] at h
      have hcs := createNewBlock_spec s hinv
      have hsp := addRowToBlock_spec idLen (createNewBlock s).1 (createNewBlock s).2
        id row rowStr step h (by rw [hcs.2.2.2.1, hcs.2.1]) hcs.1
      refine ⟨hsp.1, ?_, ?_⟩
      · rw [hsp.2.1, hcs.2.1]; omega
      · rw [hsp.2.2.1, hcs.2.2.1]
    · rw [if_neg hsz] at h
      have hsp := addRowToBlock_spec idLen s b id row rowStr step h (le_of_eq hbIdx) hinv
      exact ⟨hsp.1, le_of_eq hsp.2.1.symm, hsp.2.2.1⟩
  | none =>
    rw [hget] at h
    dsimp only at h
    have hcs := createNewBlock_spec s hinv
    have hsz : ¬ maxBlockSize < (createNewBlock s).2.size := by
      show ¬ maxBlockSize < (0 : Nat)
      omega
    rw [if_neg hsz] at h
    have hsp := addRowToBlock_spec idLen (createNewBlock s).1 (createNewBlock s).2
      id row rowStr step h (by rw [hcs.2.2.2.1, hcs.2.1]) hcs.1
    refine ⟨hsp.1, ?_, ?_⟩
    · rw [hsp.2.1, hcs.2.1]; omega
    · rw [hsp.2.2.1, hcs.2.2.1]

theorem deleteRow_spec (s : TRF) (id : JsId) (step : Nat) (hinv : Inv s) :
    Inv (deleteRow s id step) ∧
    (deleteRow s id step).currentBlockIndex = s.currentBlockIndex ∧
    (deleteRow s id step).lastSavedBlockIndex = s.lastSavedBlockIndex := by
  unfold deleteRow
  cases hgi : jsMapGet s.blockIndex id with
  | none => exact ⟨hinv, rfl, rfl⟩
  | some bi =>
    dsimp only
    cases hgb : jsMapGet s.blockList bi with
    | some b =>
      dsimp only
      refine ⟨?_, rfl, rfl⟩
      apply pushDeltaBlockIndex_inv
      apply inv_set_blockIndex
      apply pushDeltaBlockList_inv
      obtain ⟨h1, h2, h3⟩ := hinv
      refine ⟨h1, ?_, h3⟩
      intro p hp
      have hp2 : p ∈ jsMapModify s.blockList bi
          (fun b => { b with delCount := b.delCount + 1 }) := hp
      rcases mem_jsMapModify hp2 with ⟨q, hq, hq' | ⟨hqk, hq'⟩⟩
      · subst hq'; exact h2 _ hq
      · subst hq'
        have hq2 := h2 q hq
        refine ⟨?_, ?_⟩ <;> dsimp only
        · rw [hq2.1, hqk]
        · rw [← hqk]; exact hq2.2
    | none =>
      dsimp only
      refine ⟨?_, rfl, rfl⟩
      apply pushDeltaBlockIndex_inv
      apply inv_set_blockIndex
      exact hinv

theorem setRow_spec (idLen : JsId → Nat) (s : TRF) (id : JsId) (row rowStr : String)
    (step : Nat) {s' : TRF} (h : setRow idLen s id row rowStr step = some s')
    (hinv : Inv s) :
    Inv s' ∧ s.currentBlockIndex ≤ s'.currentBlockIndex ∧
    s'.lastSavedBlockIndex = s.lastSavedBlockIndex := by
  simp only [setRow] at h
  set s1 := if (jsMapGet s.blockIndex id).isSome then deleteRow s id step else s with hs1
  have hinv1 : Inv s1 ∧ s1.currentBlockIndex = s.currentBlockIndex ∧
      s1.lastSavedBlockIndex = s.lastSavedBlockIndex := by
    rw [hs1]
    split
    · exact deleteRow_spec s id step hinv
    · exact ⟨hinv, rfl, rfl⟩
  cases hadd : addToCurrentBlock idLen s1 id row rowStr step with
  | none => rw [hadd] at h; exact absurd h (by simp)
  | some si =>
    rw [hadd] at h
    dsimp only at h
    have hspec := addToCurrentBlock_spec idLen s1 id row rowStr step hadd hinv1.1
    have hseq := Option.some.inj h
    rw [← hseq]
    refine ⟨?_, ?_, ?_⟩
    · apply pushDeltaBlockIndex_inv
      apply inv_set_blockIndex
      exact hspec.1
    · show s.currentBlockIndex ≤ si.1.currentBlockIndex
      calc s.currentBlockIndex = s1.currentBlockIndex := hinv1.2.1.symm
        _ ≤ si.1.currentBlockIndex := hspec.2.1
    · show si.1.lastSavedBlockIndex = s.lastSavedBlockIndex
      rw [hspec.2.2, hinv1.2.2]

theorem jsMapGet_jsMapModify_ne {α β : Type _} [DecidableEq α]
    (m : List (α × β)) (k i : α) (f : β → β) (h : i ≠ k) :
    jsMapGet (jsMapModify m k f) i = jsMapGet m i := by
  induction m with
  | nil => rfl
  | cons p rest ih =>
    by_cases hp : p.1 = k
    · simp only [jsMapModify, List.map_cons, if_pos hp, jsMapGet]
      rw [if_neg (fun hh : k = i => h hh.symm), if_neg (by rw [hp]; exact fun hh => h hh.symm)]
      exact ih
    · simp only [jsMapModify, List.map_cons, if_neg hp, jsMapGet]
      by_cases hpi : p.1 = i
      · rw [if_pos hpi, if_pos hpi]
      · rw [if_neg hpi, if_neg hpi]
        exact ih

theorem blockListWF_jsMapModify (bl : List (Nat × Block)) (cur k : Nat) (f : Block → Block)
    (hf : ∀ b, (f b).index = b.index)
    (h : ∀ p ∈ bl, p.2.index = p.1 ∧ p.1 ≤ cur) :
    ∀ p ∈ jsMapModify bl k f, p.2.index = p.1 ∧ p.1 ≤ cur := by
  intro p hp
  rcases mem_jsMapModify hp with ⟨q, hq, hq' | ⟨hqk, hq'⟩⟩
  · subst hq'; exact h _ hq
  · subst hq'
    have hq2 := h q hq
    refine ⟨?_, ?_⟩ <;> dsimp only
    · rw [hf, hq2.1, hqk]
    · rw [← hqk]; exact hq2.2

theorem evictLoop_wf (lastSaved cnt cur : Nat) :
    ∀ (loaded : List Nat) (bl : List (Nat × Block)),
      (∀ p ∈ bl, p.2.index = p.1 ∧ p.1 ≤ cur) →
      ∀ p ∈ (evictLoop lastSaved cnt loaded bl).2, p.2.index = p.1 ∧ p.1 ≤ cur := by
  intro loaded
  induction loaded with
  | nil => intro bl h; exact h
  | cons i rest ih =>
    intro bl h
    show ∀ p ∈ (if (i :: rest).length ≤ cnt then (i :: rest, bl)
        else if lastSaved ≤ i then evictLoop lastSaved cnt rest bl
        else evictLoop lastSaved cnt rest
          (jsMapModify bl i (fun b => { b with rows := none }))).2, _
    by_cases hlen : (i :: rest).length ≤ cnt
    · rw [if_pos hlen]; exact h
    · rw [if_neg hlen]
      by_cases hls : lastSaved ≤ i
      · rw [if_pos hls]; exact ih bl h
      · rw [if_neg hls]
        exact ih _ (blockListWF_jsMapModify bl cur i _ (fun _ => rfl) h)

theorem evictLoop_get_ge (lastSaved cnt : Nat) :
    ∀ (loaded : List Nat) (bl : List (Nat × Block)) (i : Nat), lastSaved ≤ i →
      jsMapGet (evictLoop lastSaved cnt loaded bl).2 i = jsMapGet bl i := by
  intro loaded
  induction loaded with
  | nil => intro bl i _; rfl
  | cons j rest ih =>
    intro bl i hi
    show jsMapGet (if (j :: rest).length ≤ cnt then (j :: rest, bl)
        else if lastSaved ≤ j then evictLoop lastSaved cnt rest bl
        else evictLoop lastSaved cnt rest
          (jsMapModify bl j (fun b => { b with rows := none }))).2 i = jsMapGet bl i
    by_cases hlen : (j :: rest).length ≤ cnt
    · rw [if_pos hlen]
    · rw [if_neg hlen]
      by_cases hls : lastSaved ≤ j
      · rw [if_pos hls]; exact ih bl i hi
      · rw [if_neg hls]
        rw [ih _ i hi]
        exact jsMapGet_jsMapModify_ne bl j i _ (by omega)

theorem unloadPass_spec (s : TRF) (hinv : Inv s) :
    Inv (unloadPass s) ∧
    (unloadPass s).currentBlockIndex = s.currentBlockIndex ∧
    (unloadPass s).lastSavedBlockIndex = s.lastSavedBlockIndex := by
  obtain ⟨h1, h2, h3⟩ := hinv
  exact ⟨⟨h1, evictLoop_wf _ _ _ _ _ h2, h3⟩, rfl, rfl⟩

theorem loadBlockModel_spec (s : TRF) (idx : Nat) (diskRows : List (JsId × String))
    (hinv : Inv s) :
    Inv (loadBlockModel s idx diskRows) ∧
    (loadBlockModel s idx diskRows).currentBlockIndex = s.currentBlockIndex ∧
    (loadBlockModel s idx diskRows).lastSavedBlockIndex = s.lastSavedBlockIndex := by
  unfold loadBlockModel
  cases hg : jsMapGet s.blockList idx with
  | none => exact ⟨hinv, rfl, rfl⟩
  | some b =>
    dsimp only
    by_cases hr : b.rows.isSome
    · rw [if_pos hr]; exact ⟨hinv, rfl, rfl⟩
    · rw [if_neg hr]
      obtain ⟨h1, h2, h3⟩ := hinv
      refine ⟨⟨h1, ?_, h3⟩, rfl, rfl⟩
      intro p hp
      have hp2 : p ∈ jsMapModify s.blockList idx
          (fun bb => { bb with rows := some diskRows }) := hp
      exact blockListWF_jsMapModify s.blockList s.currentBlockIndex idx
        (fun bb => { bb with rows := some diskRows })
        (fun _ => rfl) h2 p hp2

theorem finalizeOne_spec (s : TRF) (idx fs fl : Nat) (hinv : Inv s) :
    Inv (finalizeOne s idx fs fl) ∧
    (finalizeOne s idx fs fl).currentBlockIndex = s.currentBlockIndex ∧
    (finalizeOne s idx fs fl).lastSavedBlockIndex = s.lastSavedBlockIndex := by
  unfold finalizeOne
  by_cases hlt : idx < s.lastSavedBlockIndex
  · rw [if_pos hlt]
    cases hg : jsMapGet s.blockList idx with
    | none =>
      dsimp only
      obtain ⟨h1, h2, h3⟩ := hinv
      exact ⟨⟨h1, h2, h3⟩, rfl, rfl⟩
    | some b =>
      dsimp only
      obtain ⟨h1, h2, h3⟩ := hinv
      refine ⟨⟨h1, ?_, h3⟩, rfl, rfl⟩
      intro p hp
      have hp2 : p ∈ jsMapModify s.blockList idx
          (fun b => { b with size := fs, rowsLength := fl, final := true }) := hp
      exact blockListWF_jsMapModify s.blockList s.currentBlockIndex idx
        (fun b => { b with size := fs, rowsLength := fl, final := true })
        (fun _ => rfl) h2 p hp2
  · rw [if_neg hlt]; exact ⟨hinv, rfl, rfl⟩

theorem finalizeBlocks_spec (s : TRF) (fs fl : Nat → Nat) (k : Nat) (hinv : Inv s) :
    Inv (finalizeBlocks s fs fl k) ∧
    (finalizeBlocks s fs fl k).currentBlockIndex = s.currentBlockIndex ∧
    (finalizeBlocks s fs fl k).lastSavedBlockIndex = s.lastSavedBlockIndex := by
  unfold finalizeBlocks
  generalize s.blocksNotFinalized.take k = idxs
  induction idxs generalizing s with
  | nil => exact ⟨hinv, rfl, rfl⟩
  | cons i rest ih =>
    rw [List.foldl_cons]
    have h1 := finalizeOne_spec s i (fs i) (fl i) hinv
    have h2 := ih (finalizeOne s i (fs i) (fl i)) h1.1
    exact ⟨h2.1, h2.2.1.trans h1.2.1, h2.2.2.trans h1.2.2⟩

theorem mem_of_getLastQ {α : Type _} {l : List α} {x : α} (h : l.getLast? = some x) :
    x ∈ l := by
  induction l with
  | nil => simp at h
  | cons a rest ih =>
    cases rest with
    | nil =>
      simp [List.getLast?] at h
      simp [h]
    | cons b t =>
      rw [List.getLast?_cons_cons] at h
      exact List.mem_cons_of_mem _ (ih h)

theorem defragMoveStep_spec (idLen : JsId → Nat) (jsonOfRow : String → String)
    (step bidx : Nat) (pr : JsId × String) (st : TRF) {s' : TRF}
    (h : defragMoveStep idLen jsonOfRow step bidx (some st) pr = some s')
    (hinv : Inv st) :
    Inv s' ∧ st.currentBlockIndex ≤ s'.currentBlockIndex ∧
    s'.lastSavedBlockIndex = st.lastSavedBlockIndex := by
  unfold defragMoveStep at h
  dsimp only at h
  by_cases hgi : jsMapGet st.blockIndex pr.1 = some bidx
  · rw [if_pos hgi] at h
    cases hadd : addToCurrentBlock idLen st pr.1 pr.2 (jsonOfRow pr.2) step with
    | none => rw [hadd] at h; exact absurd h (by simp)
    | some st2 =>
      rw [hadd] at h
      dsimp only at h
      have hspec := addToCurrentBlock_spec idLen st pr.1 pr.2 (jsonOfRow pr.2) step hadd hinv
      have hseq := Option.some.inj h
      rw [← hseq]
      refine ⟨?_, hspec.2.1, hspec.2.2⟩
      apply pushDeltaBlockIndex_inv
      apply inv_set_blockIndex
      exact hspec.1
  · rw [if_neg hgi] at h
    have hseq := Option.some.inj h
    rw [← hseq]
    exact ⟨hinv, le_refl _, rfl⟩

theorem defragMoveFold_none (idLen : JsId → Nat) (jsonOfRow : String → String)
    (step bidx : Nat) (rows : List (JsId × String)) :
    rows.foldl (defragMoveStep idLen jsonOfRow step bidx) none = none := by
  induction rows with
  | nil => rfl
  | cons pr rest ih => exact ih

theorem defragMoveFold_spec (idLen : JsId → Nat) (jsonOfRow : String → String)
    (step bidx : Nat) (rows : List (JsId × String)) :
    ∀ (s0 : TRF) {s' : TRF},
      rows.foldl (defragMoveStep idLen jsonOfRow step bidx) (some s0) = some s' →
      Inv s0 →
      Inv s' ∧ s0.currentBlockIndex ≤ s'.currentBlockIndex ∧
      s'.lastSavedBlockIndex = s0.lastSavedBlockIndex := by
  induction rows with
  | nil =>
    intro s0 s' h hinv
    rw [List.foldl_nil] at h
    have := Option.some.inj h
    rw [← this]
    exact ⟨hinv, le_refl _, rfl⟩
  | cons pr rest ih =>
    intro s0 s' h hinv
    rw [List.foldl_cons] at h
    cases hstep : defragMoveStep idLen jsonOfRow step bidx (some s0) pr with
    | none =>
      rw [hstep, defragMoveFold_none] at h
      exact absurd h (by simp)
    | some s1 =>
      rw [hstep] at h
      have h1 := defragMoveStep_spec idLen jsonOfRow step bidx pr s0 hstep hinv
      have h2 := ih s1 h h1.1
      exact ⟨h2.1, le_trans h1.2.1 h2.2.1, h2.2.2.trans h1.2.2⟩

theorem defragConsumeOne_spec (idLen : JsId → Nat) (jsonOfRow : String → String)
    (step : Nat) (b : Block) (diskRows : List (JsId × String)) (s : TRF) {s' : TRF}
    (h : defragConsumeOne idLen jsonOfRow step b diskRows s = some s')
    (hinv : Inv s) :
    Inv s' ∧ s.currentBlockIndex ≤ s'.currentBlockIndex ∧
    s'.lastSavedBlockIndex = s.lastSavedBlockIndex := by
  unfold defragConsumeOne at h
  dsimp only at h
  set s1rows :=
    (match b.rows with
    | some r => (s, r)
    | none =>
      ({ s with
          blockList := jsMapModify s.blockList b.index
            (fun bb => { bb with rows := some diskRows })
          loadedBlocks := s.loadedBlocks ++ [b.index] }, diskRows)) with hs1
  have hinv1 : Inv s1rows.1 ∧ s1rows.1.currentBlockIndex = s.currentBlockIndex ∧
      s1rows.1.lastSavedBlockIndex = s.lastSavedBlockIndex := by
    rw [hs1]
    cases b.rows with
    | some r => exact ⟨hinv, rfl, rfl⟩
    | none =>
      obtain ⟨h1, h2, h3⟩ := hinv
      refine ⟨⟨h1, ?_, h3⟩, rfl, rfl⟩
      intro p hp
      have hp2 : p ∈ jsMapModify s.blockList b.index
          (fun bb => { bb with rows := some diskRows }) := hp
      exact blockListWF_jsMapModify s.blockList s.currentBlockIndex b.index
        (fun bb => { bb with rows := some diskRows }) (fun _ => rfl) h2 p hp2
  cases hfold : s1rows.2.foldl (defragMoveStep idLen jsonOfRow step b.index)
      (some s1rows.1) with
  | none => rw [hfold] at h; exact absurd h (by simp)
  | some s2 =>
    rw [hfold] at h
    dsimp only at h
    have h2spec := defragMoveFold_spec idLen jsonOfRow step b.index s1rows.2 s1rows.1
      hfold hinv1.1
    have hseq := Option.some.inj h
    rw [← hseq]
    have hinv3 : Inv { s2 with blockList := jsMapDel s2.blockList b.index } := by
      obtain ⟨h1, h2, h3⟩ := h2spec.1
      refine ⟨h1, ?_, h3⟩
      intro p hp
      exact h2 p (mem_jsMapDel hp)
    refine ⟨?_, ?_, ?_⟩
    · apply pushDeltaDelFile_inv
      apply pushDeltaBlockList_inv
      exact hinv3
    · calc s.currentBlockIndex = s1rows.1.currentBlockIndex := hinv1.2.1.symm
        _ ≤ s2.currentBlockIndex := h2spec.2.1
    · show s2.lastSavedBlockIndex = s.lastSavedBlockIndex
      rw [h2spec.2.2, hinv1.2.2]

theorem defragConsumeFold_none (idLen : JsId → Nat) (jsonOfRow : String → String)
    (step : Nat) (dr : Nat → List (JsId × String)) (bs : List Block) :
    bs.foldl (fun acc b =>
      match acc with
      | none => none
      | some st => defragConsumeOne idLen jsonOfRow step b (dr b.index) st) none = none := by
  induction bs with
  | nil => rfl
  | cons b rest ih => exact ih

theorem defragConsumeFold_spec (idLen : JsId → Nat) (jsonOfRow : String → String)
    (step : Nat) (dr : Nat → List (JsId × String)) (bs : List Block) :
    ∀ (s0 : TRF) {s' : TRF},
      bs.foldl (fun acc b =>
        match acc with
        | none => none
        | some st => defragConsumeOne idLen jsonOfRow step b (dr b.index) st)
        (some s0) = some s' →
      Inv s0 →
      Inv s' ∧ s0.currentBlockIndex ≤ s'.currentBlockIndex ∧
      s'.lastSavedBlockIndex = s0.lastSavedBlockIndex := by
  induction bs with
  | nil =>
    intro s0 s' h hinv
    rw [List.foldl_nil] at h
    have := Option.some.inj h
    rw [← this]
    exact ⟨hinv, le_refl _, rfl⟩
  | cons b rest ih =>
    intro s0 s' h hinv
    rw [List.foldl_cons] at h
    dsimp only at h
    cases hstep : defragConsumeOne idLen jsonOfRow step b (dr b.index) s0 with
    | none =>
      rw [hstep, defragConsumeFold_none] at h
      exact absurd h (by simp)
    | some s1 =>
      rw [hstep] at h
      have h1 := defragConsumeOne_spec idLen jsonOfRow step b (dr b.index) s0 hstep hinv
      have h2 := ih s1 h h1.1
      exact ⟨h2.1, le_trans h1.2.1 h2.2.1, h2.2.2.trans h1.2.2⟩

theorem inv_deltas_del (x : TRF) (step : Nat) (h : Inv x) :
    Inv { x with deltas := jsMapDel x.deltas step } := by
  obtain ⟨h1, h2, h3⟩ := h
  refine ⟨h1, h2, ?_⟩
  intro p hp
  exact h3 p (mem_jsMapDel hp)

theorem saveDelta_spec (idLen : JsId → Nat) (jsonOfRow : String → String) (s : TRF)
    (step : Nat) (o : CommitOracle) {s' : TRF}
    (h : saveDelta idLen jsonOfRow s step o = some s') (hinv : Inv s) : Inv s' := by
  unfold saveDelta at h
  dsimp only at h
  set lastSavedBI :=
    (match (getDelta s step).blockRows.getLast? with
      | some r => r.1
      | none => 0) with hbi
  have hbile : lastSavedBI ≤ s.currentBlockIndex := by
    rw [hbi]
    cases hgl : (getDelta s step).blockRows.getLast? with
    | none => simp
    | some r =>
      dsimp only
      exact getDelta_blockRows_bound s step hinv.2.2 r (mem_of_getLastQ hgl)
  set s1 :=
    (if s.defragCandidates = [] ∧ s.blockSetDefrag ≠ [] then
      { s with
          defragCandidates := defragPick s.blockList s.blockSetDefrag
          blockSetDefrag := [] }
    else s) with hs1
  have hinv1 : Inv s1 ∧ s1.currentBlockIndex = s.currentBlockIndex := by
    rw [hs1]
    split
    · obtain ⟨h1, h2, h3⟩ := hinv
      exact ⟨⟨h1, h2, h3⟩, rfl⟩
    · exact ⟨hinv, rfl⟩
  have hinv2 : Inv { s1 with defragCandidates := s1.defragCandidates.drop o.defragStop } ∧
      ({ s1 with defragCandidates := s1.defragCandidates.drop o.defragStop } :
        TRF).currentBlockIndex = s.currentBlockIndex := by
    obtain ⟨⟨h1, h2, h3⟩, h4⟩ := hinv1
    exact ⟨⟨h1, h2, h3⟩, h4⟩
  cases hfold : (s1.defragCandidates.take o.defragStop).foldl
      (fun acc b =>
        match acc with
        | none => none
        | some st => defragConsumeOne idLen jsonOfRow step b (o.diskRows b.index) st)
      (some { s1 with defragCandidates := s1.defragCandidates.drop o.defragStop }) with
  | none => rw [hfold] at h; exact absurd h (by simp)
  | some s3 =>
    rw [hfold] at h
    dsimp only at h
    have h3spec := defragConsumeFold_spec idLen jsonOfRow step o.diskRows
      (s1.defragCandidates.take o.defragStop)
      { s1 with defragCandidates := s1.defragCandidates.drop o.defragStop } hfold hinv2.1
    have hcur3 : s.currentBlockIndex ≤ s3.currentBlockIndex := by
      calc s.currentBlockIndex
          = ({ s1 with defragCandidates := s1.defragCandidates.drop o.defragStop } :
              TRF).currentBlockIndex := hinv2.2.symm
        _ ≤ s3.currentBlockIndex := h3spec.2.1
    have hinv4 : Inv (if lastSavedBI ≠ 0 then
        { s3 with lastSavedBlockIndex := lastSavedBI } else s3) := by
      split
      · obtain ⟨h1, h2, h3⟩ := h3spec.1
        exact ⟨le_trans hbile hcur3, h2, h3⟩
      · exact h3spec.1
    have hinv5 := finalizeBlocks_spec _ o.finSize o.finLen o.finStop hinv4
    have hseq := Option.some.inj h
    rw [← hseq]
    exact inv_deltas_del _ step hinv5.1

theorem loadBlockListData_wf (data : List BlockListRec) :
    ∀ (bl0 : List (Nat × Block)) (cur0 : Nat),
      (∀ p ∈ bl0, p.2.index = p.1 ∧ p.1 ≤ cur0) →
      cur0 ≤ (loadBlockListData data bl0 cur0).2 ∧
      (∀ p ∈ (loadBlockListData data bl0 cur0).1,
        p.2.index = p.1 ∧ p.1 ≤ (loadBlockListData data bl0 cur0).2) := by
  induction data with
  | nil => intro bl0 cur0 h; exact ⟨le_refl _, h⟩
  | cons r rest ih =>
    intro bl0 cur0 h
    cases r with
    | del i =>
      exact ih (jsMapDel bl0 i) cur0 (fun p hp => h p (mem_jsMapDel hp))
    | blk b =>
      have hmax : cur0 ≤ (if cur0 < b.index then b.index else cur0) := by split <;> omega
      have hstep : ∀ p ∈ jsMapSet bl0 b.index { b with rows := none },
          p.2.index = p.1 ∧ p.1 ≤ (if cur0 < b.index then b.index else cur0) := by
        intro p hp
        rcases mem_jsMapSet hp with hp' | hp'
        · have hh := h p hp'
          exact ⟨hh.1, by have := hh.2; split <;> omega⟩
        · subst hp'
          exact ⟨rfl, by split <;> omega⟩
      have hres := ih (jsMapSet bl0 b.index { b with rows := none })
        (if cur0 < b.index then b.index else cur0) hstep
      exact ⟨le_trans hmax hres.1, hres.2⟩

theorem load_spec (s : TRF) (dump journal : Option (List (JsId × Nat)))
    (bl0 bl1 : Option (List BlockListRec)) (curRows : List (JsId × String))
    (hd : s.deltas = []) :
    Inv (load s dump journal bl0 bl1 curRows).1 := by
  unfold load
  dsimp only
  set l0 := (match bl0 with
    | some d => loadBlockListData d [] 0
    | none => (([] : List (Nat × Block)), 0)) with hl0
  set l1 := (match bl1 with
    | some d => loadBlockListData d l0.1 l0.2
    | none => l0) with hl1
  have hwf0 : ∀ p ∈ l0.1, p.2.index = p.1 ∧ p.1 ≤ l0.2 := by
    rw [hl0]
    cases bl0 with
    | none => intro p hp; simp at hp
    | some d => exact (loadBlockListData_wf d [] 0 (by intro p hp; simp at hp)).2
  have hwf1 : ∀ p ∈ l1.1, p.2.index = p.1 ∧ p.1 ≤ l1.2 := by
    rw [hl1]
    cases bl1 with
    | none => exact hwf0
    | some d => exact (loadBlockListData_wf d l0.1 l0.2 hwf0).2
  cases hg : jsMapGet l1.1 l1.2 with
  | none =>
    dsimp only
    refine ⟨le_refl _, ?_, ?_⟩
    · exact hwf1
    · intro p hp
      rw [hd] at hp
      simp at hp
  | some b =>
    dsimp only
    by_cases hr : b.rows.isSome
    · rw [if_pos hr]
      refine ⟨le_refl _, ?_, ?_⟩
      · exact hwf1
      · intro p hp
        rw [hd] at hp
        simp at hp
    · rw [if_neg hr]
      refine ⟨le_refl _, ?_, ?_⟩
      · intro p hp
        have hp2 : p ∈ jsMapModify l1.1 l1.2
            (fun bb => { bb with rows := some curRows }) := hp
        exact blockListWF_jsMapModify l1.1 l1.2 l1.2
          (fun bb => { bb with rows := some curRows }) (fun _ => rfl) hwf1 p hp2
      · intro p hp
        rw [hd] at hp
        simp at hp

/-- The commit-bound invariant holds in every reachable state. -/
theorem inv_of_reachable (idLen : JsId → Nat) (jsonOfRow : String → String) {s : TRF}
    (h : Reachable idLen jsonOfRow s) : Inv s := by
  induction h with
  | init tp c =>
    refine ⟨le_refl _, ?_, ?_⟩ <;> intro p hp <;> simp [TRF.initial] at hp
  | set id row rowStr step _ hset ih => exact (setRow_spec _ _ _ _ _ _ hset ih).1
  | del id step _ ih => exact (deleteRow_spec _ _ _ ih).1
  | getRowLoad idx dr _ ih => exact (loadBlockModel_spec _ _ _ ih).1
  | unload _ ih => exact (unloadPass_spec _ ih).1
  | commit step o _ hsd ih => exact saveDelta_spec _ _ _ _ _ hsd ih
  | cancel step _ ih => exact inv_deltas_del _ _ ih
  | loadOp dump journal bl0 bl1 curRows _ hdel _ =>
    exact load_spec _ _ _ _ _ _ hdel

/-- C1: in every reachable state of the row storage engine, the eviction
pass never sets `rows` to `null` on a block whose index is at least
`lastSavedBlockIndex` (its `blockList` entry is untouched); and since
`currentBlockIndex ≥ lastSavedBlockIndex` always holds, the current
block's entry (hence its rows) survives every eviction pass. -/
theorem c1_unload_never_evicts_unsaved (idLen : JsId → Nat) (jsonOfRow : String → String)
    (s : TRF) (hs : Reachable idLen jsonOfRow s) (i : Nat)
    (hi : s.lastSavedBlockIndex ≤ i) :
    jsMapGet (unloadPass s).blockList i = jsMapGet s.blockList i ∧
    s.lastSavedBlockIndex ≤ s.currentBlockIndex ∧
    jsMapGet (unloadPass s).blockList s.currentBlockIndex =
      jsMapGet s.blockList s.currentBlockIndex := by
  have hinv := inv_of_reachable idLen jsonOfRow hs
  have hev : (unloadPass s).blockList =
      (evictLoop s.lastSavedBlockIndex s.loadedBlocksCount
        (s.loadedBlocks ++ s.newBlocks.filter (fun j => j < s.lastSavedBlockIndex))
        s.blockList).2 := rfl
  rw [hev]
  exact ⟨evictLoop_get_ge _ _ _ _ i hi, hinv.1,
    evictLoop_get_ge _ _ _ _ s.currentBlockIndex hinv.1⟩

/-- C1 witness: the freshly constructed engine. -/
theorem c1_unload_never_evicts_unsaved_witness :
    ((TRF.initial "t" 5).lastSavedBlockIndex ≤ 0 ∧
      (jsMapGet (unloadPass (TRF.initial "t" 5)).blockList 0 =
          jsMapGet (TRF.initial "t" 5).blockList 0 ∧
        (TRF.initial "t" 5).lastSavedBlockIndex ≤ (TRF.initial "t" 5).currentBlockIndex ∧
        jsMapGet (unloadPass (TRF.initial "t" 5)).blockList
            (TRF.initial "t" 5).currentBlockIndex =
          jsMapGet (TRF.initial "t" 5).blockList (TRF.initial "t" 5).currentBlockIndex)) :=
  ⟨le_refl 0,
    c1_unload_never_evicts_unsaved (fun _ => 0) (fun r => r) (TRF.initial "t" 5)
      (Reachable.init "t" 5) 0 (le_refl 0)⟩

theorem jsMapKeys_jsMapSet_of_get_some {α β : Type _} [DecidableEq α]
    {m : List (α × β)} {k : α} {w : β} (h : jsMapGet m k = some w) (v : β) :
    jsMapKeys (jsMapSet m k v) = jsMapKeys m := by
  induction m with
  | nil => simp [jsMapGet] at h
  | cons p rest ih =>
    by_cases hp : p.1 = k
    · rw [jsMapSet, if_pos hp]
      simp [jsMapKeys, hp]
    · rw [jsMapGet, if_neg hp] at h
      rw [jsMapSet, if_neg hp]
      simp only [jsMapKeys, List.map_cons, List.cons.injEq, true_and]
      exact ih h

/-- C3: on a `set` operation, when the current block's encoded size exceeds
the ceiling the row goes into a newly created block with index
`currentBlockIndex + 1`, which becomes current; otherwise the row is
appended to the existing current block, the current index is unchanged and
no new block is created (the key set of `blockList` is unchanged). -/
theorem c3_block_rollover (idLen : JsId → Nat) (s : TRF) (id : JsId)
    (row rowStr : String) (step : Nat) (b : Block) (rm : List (JsId × String))
    (hb : jsMapGet s.blockList s.currentBlockIndex = some b)
    (hidx : b.index = s.currentBlockIndex) (hrows : b.rows = some rm) :
    (maxBlockSize < b.size →
      ∃ s', addToCurrentBlock idLen s id row rowStr step =
          some (s', s.currentBlockIndex + 1) ∧
        s'.currentBlockIndex = s.currentBlockIndex + 1 ∧
        jsMapGet s'.blockList (s.currentBlockIndex + 1) =
          some { index := s.currentBlockIndex + 1, delCount := 0, addCount := 1,
                 size := idLen id + rowStr.length, rows := some [(id, row)],
                 rowsLength := 1, final := false }) ∧
    (b.size ≤ maxBlockSize →
      ∃ s', addToCurrentBlock idLen s id row rowStr step =
          some (s', s.currentBlockIndex) ∧
        s'.currentBlockIndex = s.currentBlockIndex ∧
        jsMapGet s'.blockList s.currentBlockIndex =
          some ({ b with
                  rows := some (jsMapSet rm id row)
                  addCount := b.addCount + 1
                  size := b.size + idLen id + rowStr.length
                  rowsLength := (jsMapSet rm id row).length }) ∧
        jsMapKeys s'.blockList = jsMapKeys s.blockList) := by
  constructor
  · intro hsz
    unfold addToCurrentBlock
    rw [hb]
    dsimp only
    rw [if_pos hsz]
    refine ⟨_, rfl, rfl, ?_⟩
    simp only [addRowToBlock, createNewBlock, pushDeltaBlockRows, pushDeltaBlockList,
      modifyDelta]
    rw [jsMapGet_jsMapSet_self]
    simp [jsMapSet]
  · intro hsz
    unfold addToCurrentBlock
    rw [hb]
    dsimp only
    rw [if_neg (by omega)]
    unfold addRowToBlock
    rw [hrows]
    dsimp only
    rw [hidx]
    refine ⟨_, rfl, rfl, ?_, ?_⟩
    · simp only [pushDeltaBlockRows, pushDeltaBlockList, modifyDelta]
      rw [jsMapGet_jsMapSet_self]
    · simp only [pushDeltaBlockRows, pushDeltaBlockList, modifyDelta]
      exact jsMapKeys_jsMapSet_of_get_some hb _

/-- A one-block state for exercising `addToCurrentBlock`. -/
def c3Block0 : Block :=
  { index := 1, delCount := 0, addCount := 0, size := 0, rows := some [],
    rowsLength := 0, final := false }

def c3State : TRF :=
  { TRF.initial "t" 5 with currentBlockIndex := 1, blockList := [(1, c3Block0)] }

/-- C3 witness: a small current block (below the ceiling) receives the row
in place. -/
theorem c3_block_rollover_witness :
    (jsMapGet c3State.blockList c3State.currentBlockIndex = some c3Block0 ∧
      c3Block0.index = c3State.currentBlockIndex ∧
      c3Block0.rows = some ([] : List (JsId × String)) ∧
      c3Block0.size ≤ maxBlockSize ∧
      (∃ s', addToCurrentBlock (fun _ => 1) c3State (JsId.num 7) "r" "rs" 0 =
          some (s', c3State.currentBlockIndex) ∧
        s'.currentBlockIndex = c3State.currentBlockIndex ∧
        jsMapGet s'.blockList c3State.currentBlockIndex =
          some ({ c3Block0 with
                  rows := some (jsMapSet [] (JsId.num 7) "r")
                  addCount := c3Block0.addCount + 1
                  size := c3Block0.size + 1 + "rs".length
                  rowsLength := (jsMapSet ([] : List (JsId × String)) (JsId.num 7) "r").length }) ∧
        jsMapKeys s'.blockList = jsMapKeys c3State.blockList)) :=
  ⟨by decide, by decide, by decide, by decide,
    (c3_block_rollover (fun _ => 1) c3State (JsId.num 7) "r" "rs" 0 c3Block0 []
      (by decide) (by decide) (by decide)).2 (by decide)⟩

/-! ### C5: what `load` returns and recovers -/

/-- The autoincrement contribution of one observed id. -/
def numContrib : JsId → Nat
  | .num n => n + 1
  | .str _ => 0

def maxContrib (l : List JsId) : Nat := (l.map numContrib).foldr max 0

/-- The ids `load` scans for the autoincrement seed: all keys of the
`blockindex.0` dump plus the ids of the positive (`set`) records of the
`blockindex.1` journal. -/
def observedIds (dump journal : Option (List (JsId × Nat))) : List JsId :=
  (dump.getD []).map Prod.fst ++
    ((journal.getD []).filter (fun r => 0 < r.2)).map Prod.fst

def observedNumIds (dump journal : Option (List (JsId × Nat))) : List Nat :=
  (observedIds dump journal).filterMap
    (fun id => match id with | .num n => some n | .str _ => none)

/-- One plus the maximum numeric id observed; 0 when none is observed. -/
def autoIncSpec (dump journal : Option (List (JsId × Nat))) : Nat :=
  ((observedNumIds dump journal).map (· + 1)).foldr max 0

def recoveredBlockIndexes (recs : List BlockListRec) : List Nat :=
  recs.filterMap (fun r => match r with | .del _ => none | .blk b => some b.index)

/-- The maximum block index among non-tombstone records; 0 when none. -/
def maxBlockIndexSpec (recs : List BlockListRec) : Nat :=
  (recoveredBlockIndexes recs).foldr max 0

theorem autoStep_eq_max (a : Nat) (id : JsId) : autoStep a id = max a (numContrib id) := by
  cases id with
  | num n =>
    simp only [autoStep, numContrib]
    split <;> omega
  | str s =>
    simp only [autoStep, numContrib]
    omega

theorem maxContrib_cons (id : JsId) (l : List JsId) :
    maxContrib (id :: l) = max (numContrib id) (maxContrib l) := rfl

theorem autoFold_eq_max (l : List JsId) : ∀ a, l.foldl autoStep a = max a (maxContrib l) := by
  induction l with
  | nil =>
    intro a
    simp only [List.foldl_nil, maxContrib, List.map_nil, List.foldr_nil]
    omega
  | cons id rest ih =>
    intro a
    rw [List.foldl_cons, autoStep_eq_max, ih, maxContrib_cons]
    omega

theorem numContrib_le_maxContrib {l : List JsId} {id : JsId} (h : id ∈ l) :
    numContrib id ≤ maxContrib l := by
  induction l with
  | nil => simp at h
  | cons x rest ih =>
    rw [maxContrib_cons]
    rcases List.mem_cons.mp h with h' | h'
    · subst h'; omega
    · have := ih h'; omega

theorem maxContrib_le_iff (l : List JsId) (c : Nat) :
    maxContrib l ≤ c ↔ ∀ id ∈ l, numContrib id ≤ c := by
  induction l with
  | nil =>
    simp only [maxContrib, List.map_nil, List.foldr_nil]
    simp
  | cons id rest ih =>
    rw [maxContrib_cons]
    constructor
    · intro h x hx
      rcases List.mem_cons.mp hx with h' | h'
      · subst h'; omega
      · have := ih.mp (by omega) x h'; omega
    · intro h
      have h1 := h id (List.mem_cons_self _ _)
      have h2 := ih.mpr (fun x hx => h x (List.mem_cons_of_mem _ hx))
      omega

theorem maxContrib_eq_of_mem_iff {l1 l2 : List JsId} (h : ∀ x, x ∈ l1 ↔ x ∈ l2) :
    maxContrib l1 = maxContrib l2 := by
  apply le_antisymm
  · rw [maxContrib_le_iff]
    intro id hid
    exact numContrib_le_maxContrib ((h id).mp hid)
  · rw [maxContrib_le_iff]
    intro id hid
    exact numContrib_le_maxContrib ((h id).mpr hid)

theorem maxContrib_append (l1 l2 : List JsId) :
    maxContrib (l1 ++ l2) = max (maxContrib l1) (maxContrib l2) := by
  induction l1 with
  | nil =>
    simp only [List.nil_append, maxContrib, List.map_nil, List.foldr_nil]
    omega
  | cons id rest ih =>
    rw [List.cons_append, maxContrib_cons, maxContrib_cons, ih]
    omega

theorem mem_jsMapKeys_jsMapSet {α β : Type _} [DecidableEq α]
    (m : List (α × β)) (k : α) (v : β) (x : α) :
    x ∈ jsMapKeys (jsMapSet m k v) ↔ x ∈ jsMapKeys m ∨ x = k := by
  induction m with
  | nil => simp [jsMapSet, jsMapKeys]
  | cons p rest ih =>
    by_cases hp : p.1 = k
    · rw [jsMapSet, if_pos hp]
      simp only [jsMapKeys, List.map_cons, List.mem_cons]
      rw [hp]
      tauto
    · rw [jsMapSet, if_neg hp]
      simp only [jsMapKeys, List.map_cons, List.mem_cons] at ih ⊢
      rw [ih]
      tauto

theorem mem_keys_foldl_set (d : List (JsId × Nat)) :
    ∀ (m0 : List (JsId × Nat)) (x : JsId),
      (x ∈ jsMapKeys (d.foldl (fun m p => jsMapSet m p.1 p.2) m0) ↔
        x ∈ jsMapKeys m0 ∨ x ∈ d.map Prod.fst) := by
  induction d with
  | nil => intro m0 x; simp
  | cons p rest ih =>
    intro m0 x
    rw [List.foldl_cons, ih, mem_jsMapKeys_jsMapSet]
    simp only [List.map_cons, List.mem_cons]
    tauto

theorem mem_keys_fromList (d : List (JsId × Nat)) (x : JsId) :
    x ∈ jsMapKeys (jsMapFromList d) ↔ x ∈ d.map Prod.fst := by
  unfold jsMapFromList
  rw [mem_keys_foldl_set]
  simp [jsMapKeys]

theorem loadBlockIndexDump_auto (d : List (JsId × Nat)) :
    (loadBlockIndexDump d).2 = maxContrib (d.map Prod.fst) := by
  unfold loadBlockIndexDump
  dsimp only
  rw [autoFold_eq_max]
  rw [maxContrib_eq_of_mem_iff (fun x => mem_keys_fromList d x)]
  omega

theorem loadBlockIndexJournal_auto (j : List (JsId × Nat)) :
    ∀ (m0 : List (JsId × Nat)) (a0 : Nat),
      (loadBlockIndexJournal j m0 a0).2 =
        ((j.filter (fun r => 0 < r.2)).map Prod.fst).foldl autoStep a0 := by
  induction j with
  | nil => intro m0 a0; rfl
  | cons r rest ih =>
    intro m0 a0
    show (rest.foldl _ (if 0 < r.2 then (jsMapSet m0 r.1 r.2, autoStep a0 r.1)
        else (jsMapDel m0 r.1, a0))).2 = _
    by_cases hr : 0 < r.2
    · rw [if_pos hr]
      have hfil : (r :: rest).filter (fun q => 0 < q.2) =
          r :: rest.filter (fun q => 0 < q.2) := by
        rw [List.filter_cons]
        simp [hr]
      rw [hfil, List.map_cons, List.foldl_cons]
      exact ih (jsMapSet m0 r.1 r.2) (autoStep a0 r.1)
    · rw [if_neg hr]
      have hfil : (r :: rest).filter (fun q => 0 < q.2) =
          rest.filter (fun q => 0 < q.2) := by
        rw [List.filter_cons]
        simp [hr]
      rw [hfil]
      exact ih (jsMapDel m0 r.1) a0

theorem maxContrib_eq_numSpec (l : List JsId) :
    maxContrib l = ((l.filterMap
      (fun id => match id with | .num n => some n | .str _ => none)).map (· + 1)).foldr max 0 := by
  induction l with
  | nil => rfl
  | cons id rest ih =>
    rw [maxContrib_cons, ih]
    cases id with
    | num n =>
      rw [show (JsId.num n :: rest).filterMap
          (fun id => match id with | .num n => some n | .str _ => none) =
          n :: rest.filterMap (fun id => match id with | .num n => some n | .str _ => none)
          from by rw [List.filterMap_cons]]
      rw [List.map_cons, List.foldr_cons]
      rfl
    | str t =>
      rw [show (JsId.str t :: rest).filterMap
          (fun id => match id with | .num n => some n | .str _ => none) =
          rest.filterMap (fun id => match id with | .num n => some n | .str _ => none)
          from by rw [List.filterMap_cons]]
      show max 0 _ = _
      omega

theorem maxBlockIndexSpec_cons_del (i : Nat) (rest : List BlockListRec) :
    maxBlockIndexSpec (.del i :: rest) = maxBlockIndexSpec rest := rfl

theorem maxBlockIndexSpec_cons_blk (b : Block) (rest : List BlockListRec) :
    maxBlockIndexSpec (.blk b :: rest) = max b.index (maxBlockIndexSpec rest) := rfl

theorem loadBlockListData_cur (data : List BlockListRec) :
    ∀ (bl0 : List (Nat × Block)) (cur0 : Nat),
      (loadBlockListData data bl0 cur0).2 = max cur0 (maxBlockIndexSpec data) := by
  induction data with
  | nil =>
    intro bl0 cur0
    show cur0 = max cur0 (maxBlockIndexSpec [])
    show cur0 = max cur0 0
    omega
  | cons r rest ih =>
    intro bl0 cur0
    cases r with
    | del i =>
      rw [maxBlockIndexSpec_cons_del]
      exact ih (jsMapDel bl0 i) cur0
    | blk b =>
      rw [maxBlockIndexSpec_cons_blk]
      have hstep : (loadBlockListData (BlockListRec.blk b :: rest) bl0 cur0).2 =
          (loadBlockListData rest (jsMapSet bl0 b.index { b with rows := none })
            (if cur0 < b.index then b.index else cur0)).2 := rfl
      rw [hstep, ih]
      have : (if cur0 < b.index then b.index else cur0) = max cur0 b.index := by
        split <;> omega
      rw [this]
      omega

theorem maxBlockIndexSpec_append (l1 l2 : List BlockListRec) :
    maxBlockIndexSpec (l1 ++ l2) = max (maxBlockIndexSpec l1) (maxBlockIndexSpec l2) := by
  induction l1 with
  | nil =>
    show maxBlockIndexSpec l2 = max (maxBlockIndexSpec []) (maxBlockIndexSpec l2)
    show maxBlockIndexSpec l2 = max 0 (maxBlockIndexSpec l2)
    omega
  | cons r rest ih =>
    cases r with
    | del i =>
      rw [List.cons_append, maxBlockIndexSpec_cons_del, maxBlockIndexSpec_cons_del, ih]
    | blk b =>
      rw [List.cons_append, maxBlockIndexSpec_cons_blk, maxBlockIndexSpec_cons_blk, ih]
      omega

/-- C5: `load()` returns one plus the maximum numeric id observed while
rebuilding `blockIndex` from the `blockindex.0` dump and the positive
records of the `blockindex.1` journal (0 when no numeric id is observed),
and on return `lastSavedBlockIndex` equals `currentBlockIndex`, which
equals the maximum block index among the non-deleted records recovered
from `blocklist.0` and `blocklist.1`. -/
theorem c5_load_recovery (s : TRF) (dump journal : Option (List (JsId × Nat)))
    (bl0 bl1 : Option (List BlockListRec)) (curRows : List (JsId × String)) :
    (load s dump journal bl0 bl1 curRows).2 = autoIncSpec dump journal ∧
    (load s dump journal bl0 bl1 curRows).1.lastSavedBlockIndex =
      (load s dump journal bl0 bl1 curRows).1.currentBlockIndex ∧
    (load s dump journal bl0 bl1 curRows).1.currentBlockIndex =
      maxBlockIndexSpec (bl0.getD [] ++ bl1.getD []) := by
  unfold load
  dsimp only
  set d0 := (match dump with
    | some d => loadBlockIndexDump d
    | none => (([] : List (JsId × Nat)), 0)) with hd0
  set d1 := (match journal with
    | some j => loadBlockIndexJournal j d0.1 d0.2
    | none => d0) with hd1
  set l0 := (match bl0 with
    | some d => loadBlockListData d [] 0
    | none => (([] : List (Nat × Block)), 0)) with hl0
  set l1 := (match bl1 with
    | some d => loadBlockListData d l0.1 l0.2
    | none => l0) with hl1
  have hauto : d1.2 = autoIncSpec dump journal := by
    have ha0 : d0.2 = maxContrib ((dump.getD []).map Prod.fst) := by
      rw [hd0]
      cases dump with
      | none => rfl
      | some d => exact loadBlockIndexDump_auto d
    have ha1 : d1.2 = max d0.2
        (maxContrib (((journal.getD []).filter (fun r => 0 < r.2)).map Prod.fst)) := by
      rw [hd1]
      cases journal with
      | none =>
        show d0.2 = _
        dsimp only [Option.getD]
        rw [show ((([] : List (JsId × Nat)).filter (fun r => 0 < r.2)).map Prod.fst) = []
          from rfl]
        show d0.2 = max d0.2 (maxContrib [])
        show d0.2 = max d0.2 0
        omega
      | some j =>
        rw [loadBlockIndexJournal_auto j d0.1 d0.2, autoFold_eq_max]
        rfl
    rw [ha1, ha0]
    unfold autoIncSpec observedNumIds
    rw [← maxContrib_eq_numSpec]
    unfold observedIds
    rw [maxContrib_append]
  have hcur : l1.2 = maxBlockIndexSpec (bl0.getD [] ++ bl1.getD []) := by
    have hc0 : l0.2 = maxBlockIndexSpec (bl0.getD []) := by
      rw [hl0]
      cases bl0 with
      | none =>
        show 0 = maxBlockIndexSpec []
        rfl
      | some d =>
        rw [loadBlockListData_cur]
        show max 0 (maxBlockIndexSpec d) = maxBlockIndexSpec d
        omega
    have hc1 : l1.2 = max l0.2 (maxBlockIndexSpec (bl1.getD [])) := by
      rw [hl1]
      cases bl1 with
      | none =>
        show l0.2 = max l0.2 (maxBlockIndexSpec [])
        show l0.2 = max l0.2 0
        omega
      | some d =>
        rw [loadBlockListData_cur]
        rfl
    rw [hc1, hc0, maxBlockIndexSpec_append]
  cases hg : jsMapGet l1.1 l1.2 with
  | none =>
    dsimp only
    exact ⟨hauto, rfl, hcur⟩
  | some b =>
    dsimp only
    by_cases hr : b.rows.isSome
    · rw [if_pos hr]
      exact ⟨hauto, rfl, hcur⟩
    · rw [if_neg hr]
      exact ⟨hauto, rfl, hcur⟩

/-! ## C8: sharded-table insert rejects rows with an `id`
(src/ShardedTable.js, `insert`, lines 695-771)

Rows are modelled by the two properties `insert` inspects:
`utils.hasProp(row, 'id')` and the `shard` field (absent, or a string).
The per-shard `BasicTable`s are abstracted to the row lists they hold
(the basic table is external to this specification, §4.E); `_genAutoShard`
reads the shard list and the opened-shard set and mutates only
`this.autoShard`, so it enters the model as a function of the state
returning the generated name and the new `autoShard` component.  State is
returned alongside the outcome because mutations made before a `throw`
survive the exception on the JS object. -/

structure IRow where
  hasId : Bool
  shard : Option String
deriving Repr, DecidableEq

structure ShardRec where
  num : Nat
  count : Int
deriving Repr, DecidableEq

structure AutoShard where
  step : Nat
  list : List (String × Int)
deriving Repr, DecidableEq

structure STState where
  shardList : List (String × ShardRec)
  infoShardCount : Int
  shardTables : List (String × List IRow)
  openedShardNames : List String
  autoShard : AutoShard
  freeShardNums : List Nat
deriving Repr, DecidableEq

/-- `const maxFreeShardNumsLength = 100`. -/
def maxFreeShardNumsLength : Nat := 100

/-- `const autoShardName = '___auto'`. -/
def autoShardName : String := "___auto"

/-- The `while` loop of `_getFreeShardNum` (lines 132-137): collect the
first `need` naturals not in `used`, starting at `i`.  The fuel bounds the
loop; `used.length + need` iterations always suffice. -/
def freeNumsFrom (used : List Nat) : Nat → Nat → Nat → List Nat
  | 0, _, _ => []
  | fuel + 1, i, need =>
    if need = 0 then []
    else if i ∈ used then freeNumsFrom used fuel (i + 1) need
    else i :: freeNumsFrom used fuel (i + 1) (need - 1)

/-- `_getFreeShardNum()` (lines 124-141): refill the pool from the used
numbers when empty, then shift the head. -/
def getFreeShardNum (s : STState) : Nat × STState :=
  let pool :=
    if s.freeShardNums = [] then
      let used := s.shardList.map (fun p => p.2.num)
      freeNumsFrom used (used.length + maxFreeShardNumsLength) 0 maxFreeShardNumsLength
    else s.freeShardNums
  (pool.headD 0, { s with freeShardNums := pool.tail })

/-- The checks-and-routing loop of `insert` (lines 710-735): validate each
row in order (the `row.id` check comes first), resolve its shard (absent
shard through `shardGen`, the reserved name through `_genAutoShard`), and
group the rows by shard. -/
def validateRows (genAuto : STState → String × AutoShard)
    (shardGen : Option (IRow → String)) :
    STState → List IRow → List (String × List IRow) →
    STState × Except String (List (String × List IRow))
  | s, [], acc => (s, .ok acc)
  | s, row :: rest, acc =>
    if row.hasId then
      (s, .error "row.id use is not allowed for this table type (sharded) while insert")
    else
      match (match row.shard, shardGen with
        | none, none => none
        | none, some gen => some (gen row)
        | some sh, _ => some sh) with
      | none => (s, .error "No row.shard field found for row")
      | some sh =>
        if sh = "" then
          (s, .error "Wrong row.shard field value")
        else
          let ga :=
            if sh = autoShardName then
              let g := genAuto s
              ({ s with autoShard := g.2 }, g.1)
            else (s, sh)
          let r := (jsMapGet acc ga.2).getD []
          validateRows genAuto shardGen ga.1 rest
            (jsMapSet acc ga.2 (r ++ [{ row with shard := some ga.2 }]))

/-- `_getOpenedShardsFirst(shardsIter)` (lines 556-568). -/
def getOpenedShardsFirst (s : STState) (shards : List String) : List String :=
  shards.filter (fun sh => sh ∈ s.openedShardNames) ++
    shards.filter (fun sh => sh ∉ s.openedShardNames)

/-- One iteration of the inserting loop (lines 743-764): `_lockShard`
(allocating a shard record for a new shard), the per-shard
`table.insert({rows})` (the basic table appends the rows), then the
`shardRec.count` / `infoShard.count` bookkeeping. -/
def insertShardOne (s : STState) (sh : String) (rows : List IRow) : STState × Nat :=
  let s0 :=
    match jsMapGet s.shardList sh with
    | some _ => s
    | none =>
      let g := getFreeShardNum s
      { g.2 with shardList := jsMapSet g.2.shardList sh { num := g.1, count := 0 } }
  let s1 := { s0 with openedShardNames := jsSetAdd s0.openedShardNames sh }
  let tbl := (jsMapGet s1.shardTables sh).getD [] ++ rows
  let s2 := { s1 with shardTables := jsMapSet s1.shardTables sh tbl }
  let rec0 := (jsMapGet s2.shardList sh).getD { num := 0, count := 0 }
  let shardCount : Int := tbl.length
  let s3 := { s2 with
      infoShardCount := s2.infoShardCount - rec0.count + shardCount
      shardList := jsMapSet s2.shardList sh { rec0 with count := shardCount } }
  (s3, rows.length)

/-- `insert(query)`: validate and group all rows, then insert shard by
shard (opened shards first).  Returns the state and either the error or
the inserted count. -/
def insertST (genAuto : STState → String × AutoShard)
    (shardGen : Option (IRow → String)) (s : STState) (rows : List IRow) :
    STState × Except String Nat :=
  match validateRows genAuto shardGen s rows [] with
  | (s1, .error e) => (s1, .error e)
  | (s1, .ok shardedRows) =>
    let shards := getOpenedShardsFirst s1 (shardedRows.map (·.1))
    let res := shards.foldl (fun acc sh =>
      let one := insertShardOne acc.1 sh ((jsMapGet shardedRows sh).getD [])
      (one.1, acc.2 + one.2)) (s1, 0)
    (res.1, .ok res.2)

theorem validateRows_id_error (genAuto : STState → String × AutoShard)
    (shardGen : Option (IRow → String)) :
    ∀ (rows : List IRow) (s : STState) (acc : List (String × List IRow)),
      (∃ r ∈ rows, r.hasId = true) →
      ∃ e s', validateRows genAuto shardGen s rows acc = (s', .error e) ∧
        s'.shardList = s.shardList ∧ s'.infoShardCount = s.infoShardCount ∧
        s'.shardTables = s.shardTables := by
  intro rows
  induction rows with
  | nil =>
    intro s acc h
    simp at h
  | cons row rest ih =>
    intro s acc h
    by_cases hid : row.hasId
    · refine ⟨"row.id use is not allowed for this table type (sharded) while insert",
        s, ?_, rfl, rfl, rfl⟩
      show (if row.hasId = true then _ else _) = _
      rw [if_pos hid]
    · have hrest : ∃ r ∈ rest, r.hasId = true := by
        rcases h with ⟨r, hr, hrid⟩
        rcases List.mem_cons.mp hr with hr' | hr'
        · exact absurd (hr' ▸ hrid) hid
        · exact ⟨r, hr', hrid⟩
      show ∃ e s', (if row.hasId = true then _ else _) = _ ∧ _
      rw [if_neg hid]
      cases hsh : (match row.shard, shardGen with
        | none, none => none
        | none, some gen => some (gen row)
        | some sh, _ => some sh) with
      | none =>
        exact ⟨"No row.shard field found for row", s, rfl, rfl, rfl, rfl⟩
      | some sh =>
        dsimp only
        by_cases hemp : sh = ""
        · rw [if_pos hemp]
          exact ⟨"Wrong row.shard field value", s, rfl, rfl, rfl, rfl⟩
        · rw [if_neg hemp]
          by_cases hauto : sh = autoShardName
          · rw [if_pos hauto]
            obtain ⟨e, s', heq, h1, h2, h3⟩ := ih { s with autoShard := (genAuto s).2 }
              (jsMapSet acc (genAuto s).1
                ((jsMapGet acc (genAuto s).1).getD [] ++
                  [{ row with shard := some (genAuto s).1 }])) hrest
            exact ⟨e, s', heq, h1, h2, h3⟩
          · rw [if_neg hauto]
            obtain ⟨e, s', heq, h1, h2, h3⟩ := ih s
              (jsMapSet acc sh
                ((jsMapGet acc sh).getD [] ++ [{ row with shard := some sh }])) hrest
            exact ⟨e, s', heq, h1, h2, h3⟩

/-- C8: an insert whose rows contain some row with an `id` property always
fails with an error, and neither the shard records, nor the info-shard
count, nor any per-shard table is modified: all rows are validated before
any row is inserted, and validation mutates only the auto-shard
bookkeeping. -/
theorem c8_insert_with_id_rejected (genAuto : STState → String × AutoShard)
    (shardGen : Option (IRow → String)) (s : STState) (rows : List IRow)
    (h : ∃ r ∈ rows, r.hasId = true) :
    ∃ e s', insertST genAuto shardGen s rows = (s', .error e) ∧
      s'.shardList = s.shardList ∧ s'.infoShardCount = s.infoShardCount ∧
      s'.shardTables = s.shardTables := by
  obtain ⟨e, s', heq, h1, h2, h3⟩ := validateRows_id_error genAuto shardGen rows s [] h
  refine ⟨e, s', ?_, h1, h2, h3⟩
  unfold insertST
  rw [heq]

/-- C8 witness: a single row carrying an `id`. -/
theorem c8_insert_with_id_rejected_witness :
    ((∃ r ∈ [({ hasId := true, shard := some "a" } : IRow)], r.hasId = true) ∧
      ∃ e s', insertST (fun s => ("auto_1", s.autoShard)) none
          ⟨[], 0, [], [], ⟨0, []⟩, []⟩ [{ hasId := true, shard := some "a" }] =
          (s', .error e) ∧
        s'.shardList = ([] : List (String × ShardRec)) ∧
        s'.infoShardCount = (0 : Int) ∧
        s'.shardTables = ([] : List (String × List IRow))) :=
  ⟨⟨_, List.mem_singleton.mpr rfl, rfl⟩,
    c8_insert_with_id_rejected (fun s => ("auto_1", s.autoShard)) none
      ⟨[], 0, [], [], ⟨0, []⟩, []⟩ [{ hasId := true, shard := some "a" }]
      ⟨_, List.mem_singleton.mpr rfl, rfl⟩⟩

/-! ## C10: table type resolution in the directory manager's `open`
(JembaDb.open and _getTableType; src/unnamed/part_000, lines 1009-1067)

The directory state carries the in-memory table map (instance type and
opened flag), which directories exist on disk, and the contents of each
table's `type` file.  `tableInstance.open(opts)` itself is external; the
claim is about which constructor runs, so the model records the
constructed instance's type (`none` when no new instance is made). -/

inductive TType where
  | basic
  | memory
  | sharded
deriving Repr, DecidableEq

structure TableInstance where
  ttype : TType
  opened : Bool
deriving Repr, DecidableEq

structure DbState where
  tableMap : List (String × TableInstance)
  dirExists : String → Bool
  typeFile : String → Option String

/-- `tableExists(query)` (lines 1172-1185): the map first, then the
directory. -/
def tableExistsM (s : DbState) (table : String) : Bool :=
  (jsMapGet s.tableMap table).isSome || s.dirExists table

/-- `_getTableType(query)` (lines 1009-1018): the on-disk `type` file,
defaulting to `'basic'` when absent. -/
def getTableType (s : DbState) (table : String) : String :=
  (s.typeFile table).getD "basic"

/-- The constructor selection of `open` (lines 1051-1057):
`'memory'`/`'sharded'` pick those classes, anything else is basic. -/
def instantiateType (t : Option String) : TType :=
  if t = some "memory" then .memory
  else if t = some "sharded" then .sharded
  else .basic

/-- `open(query)` (lines 1036-1067): when the table exists or `create` is
set, and there is no opened instance in the map, construct an instance
whose type comes from the `type` file for existing tables and from
`query.type` otherwise, store it in the map and open it.  Returns the new
state and the constructed instance's type (`none` when an opened instance
was already in the map). -/
def openModel (s : DbState) (table : String) (qtype : Option String)
    (qcreate : Bool) : Except String (DbState × Option TType) :=
  if tableExistsM s table || qcreate then
    let mk : Unit → DbState × Option TType := fun _ =>
      let t := if tableExistsM s table then some (getTableType s table) else qtype
      let inst : TableInstance := { ttype := instantiateType t, opened := true }
      ({ s with tableMap := jsMapSet s.tableMap table inst }, some inst.ttype)
    match jsMapGet s.tableMap table with
    | some ti => if ti.opened then .ok (s, none) else .ok (mk ())
    | none => .ok (mk ())
  else
    .error "Table does not exist"

/-- C10: when the table already exists (in the map or on disk), the
constructed instance's type is `instantiateType (some (getTableType s
table))` — determined solely by the on-disk `type` file — and the outcome
does not depend on the `type` supplied in the query at all; the query's
`type` decides the instance only when a new table is created
(`tableExists` false, `create` true). -/
theorem c10_open_type_resolution (s : DbState) (table : String)
    (qtype qtype2 : Option String) (qcreate : Bool) :
    (tableExistsM s table = true →
      openModel s table qtype qcreate = openModel s table qtype2 qcreate ∧
      (∀ s' r, openModel s table qtype qcreate = .ok (s', some r) →
        r = instantiateType (some (getTableType s table)))) ∧
    (tableExistsM s table = false → qcreate = true →
      ∀ s' r, openModel s table qtype qcreate = .ok (s', some r) →
        r = instantiateType qtype) := by
  constructor
  · intro hex
    unfold openModel
    rw [hex]
    simp only [Bool.true_or, if_true, if_pos rfl]
    constructor
    · trivial
    · intro s' r h
      cases hg : jsMapGet s.tableMap table with
      | some ti =>
        rw [hg] at h
        dsimp only at h
        by_cases hop : ti.opened
        · rw [if_pos hop] at h
          simp at h
        · rw [if_neg hop] at h
          simp only [Except.ok.injEq, Prod.mk.injEq] at h
          exact (Option.some.inj h.2).symm
      | none =>
        rw [hg] at h
        simp only [Except.ok.injEq, Prod.mk.injEq] at h
        exact (Option.some.inj h.2).symm
  · intro hex hcr
    unfold openModel
    rw [hex, hcr]
    simp only [Bool.false_or, if_true]
    intro s' r h
    cases hg : jsMapGet s.tableMap table with
    | some ti =>
      rw [hg] at h
      dsimp only at h
      by_cases hop : ti.opened
      · rw [if_pos hop] at h
        simp at h
      · rw [if_neg hop] at h
        simp only [Except.ok.injEq, Prod.mk.injEq] at h
        exact (Option.some.inj h.2).symm
    | none =>
      rw [hg] at h
      simp only [Except.ok.injEq, Prod.mk.injEq] at h
      exact (Option.some.inj h.2).symm

/-- C10 witness: a closed table on disk with `type` file `'sharded'` is
reopened as sharded even when the query says `'memory'`; a fresh create
honours the query type. -/
theorem c10_open_type_resolution_witness :
    (tableExistsM ⟨[], fun n => n = "t", fun n => if n = "t" then some "sharded" else none⟩
        "t" = true ∧
      openModel ⟨[], fun n => n = "t", fun n => if n = "t" then some "sharded" else none⟩
          "t" (some "memory") false =
        openModel ⟨[], fun n => n = "t", fun n => if n = "t" then some "sharded" else none⟩
          "t" none false ∧
      (∀ s' r, openModel ⟨[], fun n => n = "t",
            fun n => if n = "t" then some "sharded" else none⟩
          "t" (some "memory") false = .ok (s', some r) →
        r = instantiateType (some (getTableType
          ⟨[], fun n => n = "t", fun n => if n = "t" then some "sharded" else none⟩ "t")))) :=
  ⟨by decide,
    ((c10_open_type_resolution
      ⟨[], fun n => n = "t", fun n => if n = "t" then some "sharded" else none⟩
      "t" (some "memory") none false).1 (by decide)).1,
    ((c10_open_type_resolution
      ⟨[], fun n => n = "t", fun n => if n = "t" then some "sharded" else none⟩
      "t" (some "memory") none false).1 (by decide)).2⟩

end JembaDb
